import Mathlib

/-!
# Miniature RSA: a shallow embedding of `mirsa_lib.c` and `mirsa_rw.c`

Machine model.  `uint64_t` values are natural numbers below `2 ^ 64`; every
arithmetic operation of the source on them is written with its reduction
modulo `2 ^ 64`.  An `int64_t` is kept as its two's complement bit pattern, a
natural number below `2 ^ 64`, negative exactly when it is at least `2 ^ 63`.
Operations whose result the C language leaves undefined or indeterminate
(dividing by zero, converting an out-of-range `double`, reading an array
element or a byte that was never written, writing outside an object) give
`none`.  Loops whose trip count is not fixed in advance run on fuel and give
`none` when the fuel is used up; the fuel handed to them is shown to suffice.
The one floating-point computation of the source, `ceil(log2(y))`, is modelled
with the rounding of the conversion of `y` to `double` and of the logarithm.
-/

namespace Mirsa

/-- The number of values of a `uint64_t`. -/
def U64 : Nat := 2 ^ 64

/-- Unsigned 64-bit multiplication. -/
def mul64 (a b : Nat) : Nat := (a * b) % U64

/-- Unsigned 64-bit subtraction, wrapping below zero. -/
def sub64 (a b : Nat) : Nat := (a + (U64 - b % U64)) % U64

/-- Unsigned 64-bit addition. -/
def add64 (a b : Nat) : Nat := (a + b) % U64

/-- The sign test `t < 0` on the bit pattern of an `int64_t`. -/
def isNeg64 (t : Nat) : Bool := decide (2 ^ 63 ≤ t)

/-! ## `inverse` (mirsa_lib.c, lines 25-49) -/

/-- The `while (newr != 0)` loop of `inverse`, on the state `(t, newt, r, newr)`.
It yields the values of `t` and `r` at loop exit. -/
def inverseLoop : Nat → Nat → Nat → Nat → Nat → Option (Nat × Nat)
  | 0, _, _, _, _ => none
  | fuel + 1, t, newt, r, newr =>
    if newr = 0 then some (t, r)
    else
      let quotient := r / newr
      inverseLoop fuel newt (sub64 t (mul64 quotient newt)) newr (sub64 r (mul64 quotient newr))

/-- The function `inverse(a, n)`: the sentinel `NULL`, that is `0`, when the last
remainder exceeds one, else the coefficient `t`, with `n` added once when it is
negative.  The loop strictly decreases `newr`, which starts at `a`, so it gets
`a + 1` units of fuel. -/
def inverse (a n : Nat) : Option Nat :=
  match inverseLoop (a + 1) 0 1 n a with
  | none => none
  | some (t, r) =>
    if r > 1 then some 0
    else if isNeg64 t then some (add64 t n)
    else some t

/-! ## `mr_make_keys` (mirsa_lib.c, lines 87-121) -/

/-- The three ways `mr_make_keys` ends: it returns `false` after the overflow
message, it writes the key files (private exponent `d`, public exponent `e`,
modulus `n`) and returns `true`, or it prints "no keyset" and exits. -/
inductive KeyGen where
  | overflow : KeyGen
  | keys (e d n : Nat) : KeyGen
  | noKeyset : KeyGen
  deriving DecidableEq, Repr

/-- The loop `for (e = 3; e <= 9; e++)` of `mr_make_keys`, over the candidates
still to be tried. -/
def keySearch (phi n : Nat) : List Nat → Option KeyGen
  | [] => some KeyGen.noKeyset
  | e :: rest =>
    match inverse e phi with
    | none => none
    | some d => if d ≠ 0 then some (KeyGen.keys e d n) else keySearch phi n rest

/-- The function `mr_make_keys(p, q, user)`; `__builtin_umull_overflow` reports
whether the exact product fits in 64 bits. -/
def mr_make_keys (p q : Nat) : Option KeyGen :=
  let n := mul64 p q
  if U64 ≤ p * q then some KeyGen.overflow
  else
    let phi := mul64 (sub64 p 1) (sub64 q 1)
    keySearch phi n [3, 4, 5, 6, 7, 8, 9]

/-! ## `modpow`, `mr_encrypt`, `mr_decrypt` (mirsa_lib.c, lines 153-195) -/

/-- The integer part of the binary logarithm of `1 ≤ y < 2 ^ 64`: the least `e` with
`y < 2 ^ (e + 1)`. -/
def floorLog2 (y : Nat) : Nat :=
  ((List.range 64).find? (fun e => decide (y < 2 ^ (e + 1)))).getD 63

/-- The conversion `(double) y` of `1 ≤ y < 2 ^ 64`, to the nearest number of 53
significant bits, ties to even: with `e = floorLog2 y` the `double` is
`(2 ^ 52 + j) * 2 ^ e / 2 ^ 52`, and `j` is the value given here (`j = 2 ^ 52` when
the conversion rounds up to `2 ^ (e + 1)`). -/
def doubleOffset (y : Nat) : Nat :=
  let e := floorLog2 y
  if e ≤ 52 then (y - 2 ^ e) * 2 ^ (52 - e)
  else
    let s := 2 ^ (e - 52)
    let q := (y - 2 ^ e) / s
    let r := (y - 2 ^ e) % s
    if s < 2 * r ∨ (2 * r = s ∧ q % 2 = 1) then q + 1 else q

/-- The value of `ceil(log2(y))` for a `uint64_t` `y`: `y` is converted to `double`
and `log2` is taken to return the `double` nearest to the real logarithm.  With
`e = floorLog2 y` and `j = doubleOffset y`, the logarithm of the `double` is
`e + log2(1 + j / 2 ^ 52)`.  For `j = 0` it is `e`.  For `1 ≤ j ≤ 11` it lies
less than `2 ^ (-48)` above `e`, which for `32 ≤ e < 64` is less than half the
spacing of the `double`s at `e`, so `log2` returns `e` itself and the value is `e`
again: 49 for `y = 2 ^ 49 + 1`, 56 for `y = 2 ^ 56 + 13`, 63 for `y = 2 ^ 63 + 1`.
For `j ≥ 12` the logarithm rounds to a `double` above `e` and the value is
`e + 1`.  An integer `y` with `e < 49` that is not `2 ^ e` has `j ≥ 16`, so below
`2 ^ 49` the value is the exact ceiling of the logarithm.  For `y = 0` the C value
is minus infinity, whose conversion to `int` is undefined. -/
def ceilLog2 (y : Nat) : Option Nat :=
  if y = 0 then none
  else if doubleOffset y ≤ 11 then some (floorLog2 y) else some (floorLog2 y + 1)

/-- The array `mods` right after `mods[0] = x`: `index` elements, only the first
one written. -/
def modsInit (index x : Nat) : List (Option Nat) :=
  (List.replicate index none).set 0 (some x)

/-- One pass of the body `mods[i] = (mods[i-1] * mods[i-1]) % z`. -/
def fillStep (z : Nat) (mods : List (Option Nat)) (i : Nat) : Option (List (Option Nat)) :=
  match mods.get? (i - 1) with
  | some (some m) => if z = 0 then none else some (mods.set i (some (mul64 m m % z)))
  | _ => none

/-- The loop `for (i = 1; i < index - 1; i++)` of `modpow`. -/
def fillMods (z index x : Nat) : Option (List (Option Nat)) :=
  (List.range' 1 (index - 2)).foldlM (fillStep z) (modsInit index x)

/-- One pass of the body of the second loop of `modpow`, on the state `(val, y)`;
`pow(2, i)` converts to a `uint64_t` only for `i < 64`. -/
def combineStep (z : Nat) (mods : List (Option Nat)) (st : Nat × Nat) (i : Nat) :
    Option (Nat × Nat) :=
  if 64 ≤ i then none
  else
    let current := 2 ^ i
    if current ≤ st.2 then
      match mods.get? i with
      | some (some m) => if z = 0 then none else some (mul64 st.1 m % z, st.2 - current)
      | _ => none
    else some st

/-- The function `modpow(x, y, z)`. -/
def modpow (x y z : Nat) : Option Nat :=
  match ceilLog2 y with
  | none => none
  | some l =>
    let index := l + 1
    match fillMods z index x with
    | none => none
    | some mods =>
      match (List.range index).reverse.foldlM (combineStep z mods) (1, y) with
      | none => none
      | some st => some st.1

/-- The struct `key_t`, with the fields the source reads and writes:
`key` is the exponent and `nonce` the modulus. -/
structure key_t where
  key : Nat
  nonce : Nat
  deriving DecidableEq, Repr

/-- The function `mr_encrypt(p, pubkey)`. -/
def mr_encrypt (p : Nat) (pubkey : key_t) : Option Nat :=
  modpow p pubkey.key pubkey.nonce

/-- The function `mr_decrypt(c, pvtkey)`. -/
def mr_decrypt (c : Nat) (pvtkey : key_t) : Option Nat :=
  modpow c pvtkey.key pvtkey.nonce

/-! ## `modpow` with the contents of memory made explicit

In `modpow` above an entry of `mods` that was never written has no value, and the
function has none when it reads one.  The same code is given here with the values
left open that the source does not fix: what the memory of `mods` holds before it
is written (`stack`), what `pow(2, i)` converts to for `i ≥ 64` (`c64`), and, in
`modpowOn`, the table length `index` itself. -/

/-- The array `mods` right after `mods[0] = x`, in memory that held `stack i` at
the place of `mods[i]`. -/
def modsInitOn (stack : Nat → Nat) (index x : Nat) : List (Option Nat) :=
  ((List.range index).map (fun i => some (stack i))).set 0 (some x)

/-- One pass of the body of the second loop of `modpow`, on the state `(val, y)`,
where `(uint64_t) pow(2, i)` is `c64` for `i ≥ 64`. -/
def combineStepOn (c64 z : Nat) (mods : List (Option Nat)) (st : Nat × Nat) (i : Nat) :
    Option (Nat × Nat) :=
  let current := if i < 64 then 2 ^ i else c64
  if current ≤ st.2 then
    match mods.get? i with
    | some (some m) => if z = 0 then none else some (mul64 st.1 m % z, st.2 - current)
    | _ => none
  else some st

/-- The body of `modpow(x, y, z)` from the declaration of `mods` on, for a given
value of `index`. -/
def modpowOn (stack : Nat → Nat) (c64 index x y z : Nat) : Option Nat :=
  match (List.range' 1 (index - 2)).foldlM (fillStep z) (modsInitOn stack index x) with
  | none => none
  | some mods =>
    match (List.range index).reverse.foldlM (combineStepOn c64 z mods) (1, y) with
    | none => none
    | some st => some st.1

/-- The function `modpow(x, y, z)` in memory that held `stack`. -/
def modpowAny (stack : Nat → Nat) (c64 x y z : Nat) : Option Nat :=
  match ceilLog2 y with
  | none => none
  | some l => modpowOn stack c64 (l + 1) x y z

/-! ## `mr_encode`, `mr_decode` (mirsa_lib.c, lines 200-243) -/

/-- One `char` of memory: `some c` holds the byte `c` (0..255), `none` was never
written and holds no definite value. -/
abbrev Cell := Option Nat

/-- The character code of the upper-case hexadecimal digit `d`. -/
def hexDigitChar (d : Nat) : Nat := if d < 10 then 48 + d else 55 + d

/-- The value of the character `c` as a hexadecimal digit, if it is one. -/
def hexDigitVal (c : Nat) : Option Nat :=
  if 48 ≤ c ∧ c ≤ 57 then some (c - 48)
  else if 65 ≤ c ∧ c ≤ 70 then some (c - 55)
  else if 97 ≤ c ∧ c ≤ 102 then some (c - 87)
  else none

/-- The digits of `v` in base `b`, most significant first, on fuel. -/
def digitsAux (b : Nat) : Nat → Nat → List Nat
  | 0, _ => []
  | fuel + 1, v => if v < b then [v] else digitsAux b fuel (v / b) ++ [v % b]

/-- The digits `printf` prints for `v` in base `b` (`2 ≤ b`), most significant
first; `v + 1` units of fuel are more than `v` has digits. -/
def digitsOf (b v : Nat) : List Nat := digitsAux b (v + 1) v

/-- The characters of the conversions `%02X` and `%02lX`: upper-case hexadecimal,
padded with zeros on the left to at least two characters. -/
def fmt02X (v : Nat) : List Nat :=
  let ds := (digitsOf 16 v).map hexDigitChar
  List.replicate (2 - ds.length) 48 ++ ds

/-- The `unsigned int` that `%02X` prints for a `char` argument holding the byte
`c`: the `char` is promoted to `int`, so where `char` is signed a byte of 128 or
more is a negative number.  The source does not fix the signedness of `char`. -/
def charToUInt (signedChar : Bool) (c : Nat) : Nat :=
  if signedChar ∧ 128 ≤ c then 2 ^ 32 - 256 + c else c

/-- The call `sprintf(&buf[pos], ...)` printing the characters `s`: they and the
terminating NUL are stored from `pos` on; stores outside `buf` are undefined. -/
def writeStr (buf : List Cell) (pos : Nat) (s : List Nat) : Option (List Cell) :=
  if pos + s.length + 1 ≤ buf.length then
    some (buf.take pos ++ (s.map some ++ [some 0]) ++ buf.drop (pos + s.length + 1))
  else none

/-- The call `strtoul(s, NULL, 16)` on a string of hexadecimal digits: the value
of the digits up to the first other character, `acc` being the value so far.
The strings the source passes hold nothing but digits before their NUL, and too
few of them to exceed an `unsigned long`. -/
def strtoul16 : List Cell → Nat → Option Nat
  | [], _ => none
  | none :: _, _ => none
  | some c :: rest, acc =>
    match hexDigitVal c with
    | some d => strtoul16 rest (acc * 16 + d)
    | none => some acc

/-- The loop `while (st[loop_step] != 0)` of `mr_encode`, over the memory from
`st[loop_step]` on, with the state `(hex_st, hex_step)`. -/
def encodeLoop (signedChar : Bool) : List Cell → List Cell → Nat → Option (List Cell × Nat)
  | [], _, _ => none
  | none :: _, _, _ => none
  | some c :: rest, hex_st, hex_step =>
    if c = 0 then some (hex_st, hex_step)
    else
      match writeStr hex_st hex_step (fmt02X (charToUInt signedChar c)) with
      | none => none
      | some hex_st1 => encodeLoop signedChar rest hex_st1 (hex_step + 2)

/-- The function `mr_encode(st)`, `st` being the memory the pointer designates. -/
def mr_encode (signedChar : Bool) (st : List Cell) : Option Nat :=
  match encodeLoop signedChar st (List.replicate 9 none) 0 with
  | none => none
  | some (hex_st, hex_step) =>
    if hex_step < 9 then strtoul16 (hex_st.set hex_step (some 0)) 0 else none

/-- One pass of the body of the loop of `mr_decode`, on the state
`(decoded_st, decoded_index)`.  The array `sub_st` has no terminator, so `strtoul`
reads on past `sub_st[1]` when both characters are digits; the byte that follows
the array in memory, which the source does not set, is taken to be one that ends
the number, as a NUL does.  With another byte there the value stored differs; which
words reach this pass, how many passes there are and whether a pass stays within
the allocation do not depend on it.  A store past the five allocated bytes is
undefined. -/
def decodeStep (hex_st : List Cell) (st : List Cell × Nat) (i : Nat) :
    Option (List Cell × Nat) :=
  match hex_st.get? i, hex_st.get? (i + 1) with
  | some c0, some c1 =>
    if st.2 < 5 then
      some (st.1.set st.2 ((strtoul16 [c0, c1, some 0] 0).map (fun v => v % 256)), st.2 + 1)
    else none
  | _, _ => none

/-- The function `mr_decode(code)`: the five allocated bytes it returns.
`num_digits` counts the decimal digits of `code`; `snprintf` stores at most
`num_digits` characters of the hexadecimal rendering, then NUL; the loop
`for (i = 0; i < num_digits - 1; i += 2)` makes `num_digits / 2` passes. -/
def mr_decode (code : Nat) : Option (List Cell) :=
  let num_digits := (digitsOf 10 code).length
  let written := (fmt02X code).take num_digits
  let hex_st : List Cell :=
    written.map some ++ [some 0] ++ List.replicate (num_digits - written.length) none
  match (List.range' 0 (num_digits / 2) 2).foldlM (decodeStep hex_st)
      (List.replicate 5 none, 0) with
  | none => none
  | some st => some st.1

/-! ## `write_cipher`, `read_cipher` (mirsa_rw.c, lines 45-156) -/

/-- The capacity `BUFFER_SIZE` of the input buffer. -/
def BUFFER_SIZE : Nat := 1024

/-- The chunk length `CHUNK_SIZE`. -/
def CHUNK_SIZE : Nat := 4

/-- The `n` characters `strncpy` stores: those of the source up to its NUL, then
NULs; from a character without a definite value on, nothing is definite. -/
def copyCells : Nat → List Cell → List Cell
  | 0, _ => []
  | n + 1, some c :: src =>
    if c = 0 then List.replicate (n + 1) (some 0) else some c :: copyCells n src
  | n + 1, _ => List.replicate (n + 1) none

/-- The call `strncpy(dst, src, n)`, for `n` within `dst`. -/
def strncpy (dst src : List Cell) (n : Nat) : List Cell :=
  copyCells n src ++ dst.drop n

/-- The store `sub[j] = 0` into the five-element array `sub`; outside the array
it is undefined. -/
def storeNul (sub : List Cell) (j : Nat) : Option (List Cell) :=
  if j < sub.length then some (sub.set j (some 0)) else none

/-- The eight bytes `fwrite(&v, sizeof(uint64_t), 1, fp)` appends, least
significant first. -/
def u64Bytes (v : Nat) : List Nat :=
  (List.range 8).map (fun k => v / 256 ^ k % 256)

/-- The 64-bit words `fread(&value, sizeof(uint64_t), 1, fp)` delivers one after
the other; the loop ends at the first read that finds fewer than eight bytes. -/
def readWords : List Nat → List Nat
  | b0 :: b1 :: b2 :: b3 :: b4 :: b5 :: b6 :: b7 :: rest =>
    (b0 + 256 * (b1 + 256 * (b2 + 256 * (b3 + 256 * (b4 + 256 * (b5 + 256 * (b6 + 256 * b7)))))))
      :: readWords rest
  | _ => []

/-- The end of a pass of either branch of `write_cipher`: encode `sub`, encrypt,
and append the block to the cipher file. -/
def emitBlock (signedChar : Bool) (pub_key : key_t) (sub : List Cell) (out : List Nat) :
    Option (List Nat) :=
  match mr_encode signedChar sub with
  | none => none
  | some encoded =>
    match mr_encrypt encoded pub_key with
    | none => none
    | some encrypted => some (out ++ u64Bytes encrypted)

/-- One pass of the loop `for (i = 0; i < bytes_read; i += CHUNK_SIZE)`, on the
state `(sub, cipher file so far)`. -/
def chunkStep (signedChar : Bool) (pub_key : key_t) (buffer : List Cell) (bytes_read : Nat)
    (st : List Cell × List Nat) (i : Nat) : Option (List Cell × List Nat) :=
  let sub1 := strncpy st.1 (buffer.drop i) CHUNK_SIZE
  let sub2 : Option (List Cell) :=
    if bytes_read % CHUNK_SIZE ≠ 0 ∧ i = bytes_read - bytes_read % CHUNK_SIZE then
      (List.range' i (CHUNK_SIZE - bytes_read % CHUNK_SIZE)).foldlM storeNul sub1
    else some (strncpy sub1 (buffer.drop i) CHUNK_SIZE)
  match sub2 with
  | none => none
  | some sub =>
    match emitBlock signedChar pub_key sub st.2 with
    | none => none
    | some out => some (sub, out)

/-- The function `write_cipher`, from the public key and the bytes of the plain
input to the bytes of the cipher file.  `fread` fills at most `BUFFER_SIZE`
elements of `buffer`; the rest of it is never written.  In the short branch `j`
is a `size_t` starting at `bytes_read - 1`. -/
def write_cipher (signedChar : Bool) (pub_key : key_t) (plain : List Nat) :
    Option (List Nat) :=
  let bytes_read := min plain.length BUFFER_SIZE
  let buffer : List Cell :=
    (plain.take BUFFER_SIZE).map some ++ List.replicate (BUFFER_SIZE - bytes_read) none
  let sub : List Cell := List.replicate 5 (some 0)
  if bytes_read < CHUNK_SIZE then
    let j0 := sub64 bytes_read 1
    match (List.range' j0 (CHUNK_SIZE - j0)).foldlM storeNul (strncpy sub buffer bytes_read) with
    | none => none
    | some sub1 => emitBlock signedChar pub_key sub1 []
  else
    match (List.range' 0 ((bytes_read + (CHUNK_SIZE - 1)) / CHUNK_SIZE) CHUNK_SIZE).foldlM
        (chunkStep signedChar pub_key buffer bytes_read) (sub, []) with
    | none => none
    | some st => some st.2

/-- The characters `printf("%s", decoded)` prints: those before the first NUL.
Reading a byte never written, or past the allocation, is undefined. -/
def cString : List Cell → Option (List Nat)
  | [] => none
  | none :: _ => none
  | some c :: rest =>
    if c = 0 then some []
    else
      match cString rest with
      | none => none
      | some s => some (c :: s)

/-- One pass of the loop of `read_cipher`, on the output so far: with a plain
file `fwrite` copies `CHUNK_SIZE` bytes of the decoded block, written or not;
without one the block is printed as a string. -/
def readStep (toFile : Bool) (priv_key : key_t) (out : List Cell) (value : Nat) :
    Option (List Cell) :=
  match mr_decrypt value priv_key with
  | none => none
  | some decrypted =>
    match mr_decode decrypted with
    | none => none
    | some decoded =>
      if toFile then some (out ++ decoded.take CHUNK_SIZE)
      else
        match cString decoded with
        | none => none
        | some s => some (out ++ s.map some)

/-- The function `read_cipher`, from the private key and the bytes of the cipher
file to the bytes it emits, to the plain file (`toFile`) or to standard output. -/
def read_cipher (toFile : Bool) (priv_key : key_t) (cipher : List Nat) : Option (List Cell) :=
  (readWords cipher).foldlM (readStep toFile priv_key) []

/-! ## Reference values -/

/-- The value the first loop of `modpow` stores in `mods[i]`, `mods[0]` being `x`. -/
def modsVal (x z : Nat) : Nat → Nat
  | 0 => x
  | i + 1 => mul64 (modsVal x z i) (modsVal x z i) % z

/-- The big-endian value of a byte sequence `b_0 .. b_(k-1)`: the sum of
`b_i * 256 ^ (k - 1 - i)`. -/
def bigEndian : List Nat → Nat
  | [] => 0
  | b :: bs => b * 256 ^ bs.length + bigEndian bs

/-- Whether none of the `2 ^ depth` numbers `lo`, `lo + 2`, `lo + 4`, ... divides `p`:
trial division, split in halves, for the primes that key derivation is run on. -/
def noDivisorFrom (p lo : Nat) : Nat → Bool
  | 0 => decide (p % lo ≠ 0)
  | depth + 1 => noDivisorFrom p lo depth && noDivisorFrom p (lo + 2 * 2 ^ depth) depth

/-! ## Arithmetic of the machine operations -/

theorem U64_eq : U64 = 18446744073709551616 := by norm_num [U64]

theorem mul64_lt (a b : Nat) : mul64 a b < U64 :=
  Nat.mod_lt _ (by norm_num [U64])

theorem sub64_lt (a b : Nat) : sub64 a b < U64 :=
  Nat.mod_lt _ (by norm_num [U64])

theorem add64_lt (a b : Nat) : add64 a b < U64 :=
  Nat.mod_lt _ (by norm_num [U64])

theorem mul64_of_lt {a b : Nat} (h : a * b < U64) : mul64 a b = a * b :=
  Nat.mod_eq_of_lt h

theorem sub64_of_le {a b : Nat} (ha : a < U64) (hb : b ≤ a) : sub64 a b = a - b := by
  unfold sub64
  rw [U64_eq] at *
  omega

theorem mul64_cast (a b : Nat) : ((mul64 a b : Nat) : ZMod (2 ^ 64)) = (a : ZMod (2 ^ 64)) * b := by
  unfold mul64 U64
  rw [ZMod.natCast_mod]
  push_cast
  rfl

theorem sub64_cast (a b : Nat) : ((sub64 a b : Nat) : ZMod (2 ^ 64)) = (a : ZMod (2 ^ 64)) - b := by
  unfold sub64 U64
  rw [ZMod.natCast_mod, Nat.cast_add, Nat.cast_sub (Nat.mod_lt _ (by norm_num)).le,
    ZMod.natCast_mod, ZMod.natCast_self]
  ring

/-- The update of `newr` computes the remainder of `r` by `newr`. -/
theorem step_newr {r newr : Nat} (hr : r < U64) :
    sub64 r (mul64 (r / newr) newr) = r % newr := by
  have h1 : r / newr * newr ≤ r := Nat.div_mul_le_self r newr
  rw [mul64_of_lt (lt_of_le_of_lt h1 hr), sub64_of_le hr h1]
  have h2 := Nat.div_add_mod r newr
  have h3 : newr * (r / newr) = r / newr * newr := Nat.mul_comm _ _
  omega

/-- With fuel above `newr` the loop of `inverse` ends, and the value of `r` it
ends with is the greatest common divisor of the `r` and `newr` it started with. -/
theorem inverseLoop_gcd : ∀ (fuel t newt r newr : Nat), newr < fuel → r < U64 → newr < U64 →
    ∃ t1, inverseLoop fuel t newt r newr = some (t1, Nat.gcd r newr)
  | 0, _, _, _, _, h, _, _ => absurd h (Nat.not_lt_zero _)
  | fuel + 1, t, newt, r, newr, h, hr, hnr => by
    unfold inverseLoop
    by_cases h0 : newr = 0
    · subst h0
      exact ⟨t, by simp⟩
    · simp only [h0, if_false]
      rw [step_newr hr]
      have hlt : r % newr < newr := Nat.mod_lt _ (Nat.pos_of_ne_zero h0)
      obtain ⟨t1, ht1⟩ := inverseLoop_gcd fuel newt (sub64 t (mul64 (r / newr) newt)) newr
        (r % newr) (by omega) hnr (by omega)
      refine ⟨t1, ?_⟩
      rw [ht1, Nat.gcd_comm newr, ← Nat.gcd_rec, Nat.gcd_comm]

/-- The coefficient invariant of the loop of `inverse`.  The state carries
`t = s * T` and `newt = -s * T1` modulo `2 ^ 64` for a sign `s` and magnitudes with
`T * newr + T1 * r = n`; the value of `t` at exit is then `s2 * T2` with
`T2 * (r1 + 1) ≤ n` and `s2 * T2 * a ≡ r1` modulo `n`. -/
theorem inverseLoop_coeff (a n : Nat) : ∀ (fuel t newt r newr T T1 : Nat) (s : ℤ) (t1 r1 : Nat),
    (s = 1 ∨ s = -1) → t < U64 → newt < U64 → r < U64 →
    (t : ZMod (2 ^ 64)) = ((s * T : ℤ) : ZMod (2 ^ 64)) →
    (newt : ZMod (2 ^ 64)) = ((-s * T1 : ℤ) : ZMod (2 ^ 64)) →
    T * newr + T1 * r = n → newr < r → T * (r + 1) ≤ n →
    (n : ℤ) ∣ s * T * a - r → (n : ℤ) ∣ -s * T1 * a - newr →
    inverseLoop fuel t newt r newr = some (t1, r1) →
    ∃ (T2 : Nat) (s2 : ℤ), (s2 = 1 ∨ s2 = -1) ∧ t1 < U64 ∧
      (t1 : ZMod (2 ^ 64)) = ((s2 * T2 : ℤ) : ZMod (2 ^ 64)) ∧ T2 * (r1 + 1) ≤ n ∧
      (n : ℤ) ∣ s2 * T2 * a - r1
  | 0, _, _, _, _, _, _, _, _, _, _, _, _, _, _, _, _, _, _, _, _, h => by
    simp [inverseLoop] at h
  | fuel + 1, t, newt, r, newr, T, T1, s, t1, r1, hs, ht, hnt, hr, hct, hcnt, hmag, hlt, hbd,
      hdt, hdnt, h => by
    unfold inverseLoop at h
    by_cases h0 : newr = 0
    · simp only [h0, if_true, Option.some.injEq, Prod.mk.injEq] at h
      obtain ⟨rfl, rfl⟩ := h
      exact ⟨T, s, hs, ht, hct, hbd, hdt⟩
    · simp only [h0, if_false] at h
      rw [step_newr hr] at h
      have hmod : r % newr < newr := Nat.mod_lt _ (Nat.pos_of_ne_zero h0)
      have hdm : newr * (r / newr) + r % newr = r := Nat.div_add_mod r newr
      generalize r / newr = q at h hdm
      generalize r % newr = m at h hdm hmod
      have hdmZ : (m : ℤ) = (r : ℤ) - (q : ℤ) * (newr : ℤ) := by
        have : ((newr * q + m : Nat) : ℤ) = (r : ℤ) := by rw [hdm]
        push_cast at this
        linarith
      refine inverseLoop_coeff a n fuel newt (sub64 t (mul64 q newt)) newr m
        T1 (T + q * T1) (-s) t1 r1 ?_ hnt (sub64_lt _ _) (by omega) ?_ ?_ ?_ hmod ?_
        ?_ ?_ h
      · rcases hs with hs | hs
        · right; rw [hs]
        · left; rw [hs]; norm_num
      · rw [hcnt]
      · rw [sub64_cast, mul64_cast, hct, hcnt]
        push_cast
        ring
      · have e : T1 * m + (T + q * T1) * newr = T * newr + T1 * (newr * q + m) := by ring
        rw [e, hdm, hmag]
      · calc T1 * (newr + 1) ≤ T1 * r := Nat.mul_le_mul_left _ hlt
          _ ≤ T * newr + T1 * r := Nat.le_add_left _ _
          _ = n := hmag
      · exact hdnt
      · have h3 := dvd_sub hdt (Dvd.dvd.mul_left hdnt (q : ℤ))
        have e : - -s * ((T + q * T1 : Nat) : ℤ) * (a : ℤ) - (m : ℤ)
            = s * (T : ℤ) * (a : ℤ) - (r : ℤ)
              - (q : ℤ) * (-s * (T1 : ℤ) * (a : ℤ) - (newr : ℤ)) := by
          rw [hdmZ]
          push_cast
          ring
        rw [e]
        exact h3

/-- A residue `res` with `n ∣ res * a - 1` is an inverse of `a` modulo `n ≥ 2`. -/
theorem mod_eq_one_of_dvd {a n res : Nat} (hn2 : 2 ≤ n)
    (h : (n : ℤ) ∣ (res : ℤ) * (a : ℤ) - 1) : (a * res) % n = 1 := by
  have h1 : ((1 : Nat) : ℤ) ≡ ((a * res : Nat) : ℤ) [ZMOD (n : ℤ)] := by
    apply (Int.modEq_iff_dvd).2
    have e : ((a * res : Nat) : ℤ) - ((1 : Nat) : ℤ) = (res : ℤ) * (a : ℤ) - 1 := by
      push_cast
      ring
    rw [e]
    exact h
  have h2 : 1 ≡ a * res [MOD n] := Int.natCast_modEq_iff.1 h1
  have h3 : 1 % n = (a * res) % n := h2
  rw [← h3]
  exact Nat.mod_eq_of_lt (by omega)

/-- From the state `(0, 1, n, m)`, where `m < n` is congruent to `a` modulo `n` and
coprime to `n`, the loop ends with `r = 1`, and the coefficient it ends with,
once `n` is added to it when negative, is an inverse of `a` below `n`. -/
theorem inverseLoop_result (a n m fuel : Nat) (hn2 : 2 ≤ n) (hnW : n < U64) (hm : m < n)
    (hfuel : m < fuel) (hdiv : (n : ℤ) ∣ (a : ℤ) - (m : ℤ)) (hg : Nat.gcd n m = 1) :
    ∃ t1, inverseLoop fuel 0 1 n m = some (t1, 1) ∧
      (if isNeg64 t1 then add64 t1 n else t1) < n ∧
      (a * (if isNeg64 t1 then add64 t1 n else t1)) % n = 1 := by
  obtain ⟨t1, h⟩ := inverseLoop_gcd fuel 0 1 n m hfuel hnW (by omega)
  rw [hg] at h
  have hW : U64 = 18446744073709551616 := U64_eq
  obtain ⟨T2, s2, hs2, ht1, hc, hbd, hd⟩ := inverseLoop_coeff a n fuel 0 1 n m 0 1 (-1) t1 1
    (Or.inr rfl) (by omega) (by omega) hnW (by simp) (by simp) (by simp) hm (by simp)
    (by simp) (by simpa using hdiv) h
  refine ⟨t1, h, ?_⟩
  have hc1 : (((t1 : ℤ)) : ZMod (2 ^ 64)) = ((s2 * T2 : ℤ) : ZMod (2 ^ 64)) := by
    rw [Int.cast_natCast]
    exact hc
  have hdvd := (ZMod.intCast_eq_intCast_iff_dvd_sub _ _ _).1 hc1
  have e64 : (((2 ^ 64 : Nat)) : ℤ) = 18446744073709551616 := by norm_num
  rw [e64] at hdvd
  have key : ∃ res, (if isNeg64 t1 then add64 t1 n else t1) = res ∧ res < n ∧
      (n : ℤ) ∣ (res : ℤ) * (a : ℤ) - 1 := by
    rcases hs2 with rfl | rfl
    · have ht : t1 = T2 := by omega
      have hneg : isNeg64 t1 = false := by
        simp only [isNeg64, decide_eq_false_iff_not]
        omega
      refine ⟨T2, by rw [hneg, ht]; rfl, by omega, ?_⟩
      simpa using hd
    · by_cases hT : T2 = 0
      · subst hT
        exfalso
        have h1 : (n : ℤ) ∣ 1 := by
          have := (dvd_neg (α := ℤ)).2 hd
          simpa using this
        have h2 := Int.le_of_dvd (by norm_num) h1
        omega
      · have ht : t1 = 18446744073709551616 - T2 := by omega
        have hneg : isNeg64 t1 = true := by
          simp only [isNeg64, decide_eq_true_eq]
          omega
        refine ⟨n - T2, ?_, by omega, ?_⟩
        · rw [hneg]
          simp only [if_true, add64, hW]
          omega
        · have hle : T2 ≤ n := by omega
          have e : ((n - T2 : Nat) : ℤ) * (a : ℤ) - 1
              = (n : ℤ) * (a : ℤ) + (-1 * (T2 : ℤ) * (a : ℤ) - 1) := by
            rw [Nat.cast_sub hle]
            ring
          rw [e]
          exact dvd_add (dvd_mul_right _ _) hd
  obtain ⟨res, hres, hlt, hdv⟩ := key
  rw [hres]
  exact ⟨hlt, mod_eq_one_of_dvd hn2 hdv⟩

/-- When `a` exceeds `n`, the first two passes of the loop of `inverse` swap the
operands and reduce `a` modulo `n`. -/
theorem inverseLoop_swap (a n : Nat) (hn : 0 < n) (han : n < a) (ha : a < U64) :
    inverseLoop (a + 1) 0 1 n a = inverseLoop (a - 1) 0 1 n (a % n) := by
  have hW : U64 = 18446744073709551616 := U64_eq
  obtain ⟨k, rfl⟩ : ∃ k, a = k + 2 := ⟨a - 2, by omega⟩
  have h0 : n / (k + 2) = 0 := Nat.div_eq_of_lt han
  have e1 : inverseLoop (k + 2 + 1) 0 1 n (k + 2) = inverseLoop (k + 2) 1 0 (k + 2) n := by
    rw [inverseLoop]
    simp only [Nat.add_eq_zero, OfNat.ofNat_ne_zero, and_false, if_false, h0]
    have a1 : sub64 0 (mul64 0 1) = 0 := by simp [sub64, mul64, hW]
    have a2 : sub64 n (mul64 0 (k + 2)) = n := by
      simp only [sub64, mul64, hW, Nat.zero_mul, Nat.zero_mod]
      omega
    rw [a1, a2]
  have e2 : inverseLoop (k + 2) 1 0 (k + 2) n = inverseLoop (k + 1) 0 1 n ((k + 2) % n) := by
    rw [inverseLoop]
    simp only [Nat.pos_iff_ne_zero.1 hn, if_false]
    have a1 : sub64 1 (mul64 ((k + 2) / n) 0) = 1 := by simp [sub64, mul64, hW]
    rw [a1, step_newr ha]
  rw [e1, e2]
  rfl

/-- For `n ≥ 2` and `a` coprime to `n`, `inverse(a, n)` returns an inverse of `a`
modulo `n` that lies below `n`. -/
theorem inverse_of_coprime (a n : Nat) (ha : a < U64) (hn : n < U64) (hn2 : 2 ≤ n)
    (hg : Nat.gcd a n = 1) : ∃ t, inverse a n = some t ∧ t < n ∧ (a * t) % n = 1 := by
  have hne : a ≠ n := by
    rintro rfl
    rw [Nat.gcd_self] at hg
    omega
  have main : ∃ t1, inverseLoop (a + 1) 0 1 n a = some (t1, 1) ∧
      (if isNeg64 t1 then add64 t1 n else t1) < n ∧
      (a * (if isNeg64 t1 then add64 t1 n else t1)) % n = 1 := by
    rcases Nat.lt_or_gt_of_ne hne with hlt | hgt
    · exact inverseLoop_result a n a (a + 1) hn2 hn hlt (by omega) (by simp)
        (by rw [Nat.gcd_comm]; exact hg)
    · rw [inverseLoop_swap a n (by omega) hgt ha]
      have hmod : a % n < n := Nat.mod_lt _ (by omega)
      refine inverseLoop_result a n (a % n) (a - 1) hn2 hn hmod (by omega) ?_ ?_
      · have h1 : ((a % n : Nat) : ℤ) = (a : ℤ) - (n : ℤ) * ((a / n : Nat) : ℤ) := by
          have h2 := Nat.div_add_mod a n
          generalize a / n = q at h2
          generalize a % n = m at h2
          have : ((n * q + m : Nat) : ℤ) = (a : ℤ) := by rw [h2]
          push_cast at this
          linarith
        rw [h1]
        exact ⟨((a / n : Nat) : ℤ), by ring⟩
      · rw [Nat.gcd_comm, ← Nat.gcd_rec, Nat.gcd_comm]
        exact hg
  obtain ⟨t1, hloop, hlt, hmod⟩ := main
  unfold inverse
  rw [hloop]
  simp only [gt_iff_lt, lt_irrefl, if_false]
  by_cases hneg : isNeg64 t1 = true
  · simp only [hneg, if_true] at hlt hmod ⊢
    exact ⟨_, rfl, hlt, hmod⟩
  · simp only [hneg, if_false] at hlt hmod ⊢
    exact ⟨_, rfl, hlt, hmod⟩

/-- For `n ≥ 2` and `a` not coprime to `n`, `inverse(a, n)` returns the sentinel. -/
theorem inverse_of_not_coprime (a n : Nat) (ha : a < U64) (hn : n < U64) (hn2 : 2 ≤ n)
    (hg : Nat.gcd a n ≠ 1) : inverse a n = some 0 := by
  obtain ⟨t1, h⟩ := inverseLoop_gcd (a + 1) 0 1 n a (by omega) hn ha
  have hpos : 0 < Nat.gcd n a := Nat.gcd_pos_of_pos_left _ (by omega)
  have h2 : 1 < Nat.gcd n a := by
    rw [Nat.gcd_comm] at hg
    omega
  unfold inverse
  rw [h]
  simp [h2]

/-- On 64-bit arguments `inverse` always returns. -/
theorem inverse_total (a n : Nat) (ha : a < U64) (hn : n < U64) : ∃ t, inverse a n = some t := by
  obtain ⟨t1, h⟩ := inverseLoop_gcd (a + 1) 0 1 n a (by omega) hn ha
  unfold inverse
  rw [h]
  by_cases h1 : Nat.gcd n a > 1
  · exact ⟨0, by simp [h1]⟩
  · by_cases h2 : isNeg64 t1 = true
    · exact ⟨add64 t1 n, by simp [h1, h2]⟩
    · exact ⟨t1, by simp [h1, h2]⟩

/-! ## Key derivation -/

/-- The candidate search ends in a key set carrying the modulus it was given, or
in "no keyset". -/
theorem keySearch_total (phi n : Nat) (hphi : phi < U64) : ∀ (l : List Nat),
    (∀ e ∈ l, e < U64) →
    keySearch phi n l = some KeyGen.noKeyset ∨ ∃ e d, keySearch phi n l = some (KeyGen.keys e d n)
  | [], _ => Or.inl rfl
  | e :: rest, hl => by
    obtain ⟨d, hd⟩ := inverse_total e phi (hl e (List.mem_cons_self _ _)) hphi
    unfold keySearch
    rw [hd]
    by_cases h0 : d = 0
    · simp only [h0, ne_eq, not_true_eq_false, if_false]
      exact keySearch_total phi n hphi rest (fun x hx => hl x (List.mem_cons_of_mem _ hx))
    · exact Or.inr ⟨e, d, by simp [h0]⟩

/-- The search over the consecutive candidates `lo, lo + 1, ..., lo + k - 1`, for
`2 ≤ phi`: it selects the first candidate coprime to `phi`, with its inverse, and
reports "no keyset" exactly when there is none. -/
theorem keySearch_range (phi n : Nat) (hphi2 : 2 ≤ phi) (hphi : phi < U64) :
    ∀ (k lo : Nat), lo + k ≤ U64 →
    (∃ e d, lo ≤ e ∧ e < lo + k ∧ Nat.gcd e phi = 1 ∧
        (∀ x, lo ≤ x → x < e → Nat.gcd x phi ≠ 1) ∧ d < phi ∧ (e * d) % phi = 1 ∧
        keySearch phi n (List.range' lo k) = some (KeyGen.keys e d n)) ∨
      ((∀ x, lo ≤ x → x < lo + k → Nat.gcd x phi ≠ 1) ∧
        keySearch phi n (List.range' lo k) = some KeyGen.noKeyset)
  | 0, lo, _ => Or.inr ⟨fun x h1 h2 => by omega, rfl⟩
  | k + 1, lo, hk => by
    rw [List.range'_succ]
    unfold keySearch
    by_cases hg : Nat.gcd lo phi = 1
    · obtain ⟨d, hd, hlt, hmod⟩ := inverse_of_coprime lo phi (by omega) hphi hphi2 hg
      have hd0 : d ≠ 0 := by
        rintro rfl
        simp at hmod
      left
      refine ⟨lo, d, le_refl _, by omega, hg, fun x h1 h2 => by omega, hlt, hmod, ?_⟩
      rw [hd]
      simp [hd0]
    · rw [inverse_of_not_coprime lo phi (by omega) hphi hphi2 hg]
      simp only [ne_eq, not_true_eq_false, if_false]
      rcases keySearch_range phi n hphi2 hphi k (lo + 1) (by omega) with
        ⟨e, d, h1, h2, h3, h4, h5, h6, h7⟩ | ⟨h1, h2⟩
      · left
        refine ⟨e, d, by omega, by omega, h3, ?_, h5, h6, h7⟩
        intro x hx1 hx2
        by_cases hx : x = lo
        · rw [hx]; exact hg
        · exact h4 x (by omega) hx2
      · right
        refine ⟨?_, h2⟩
        intro x hx1 hx2
        by_cases hx : x = lo
        · rw [hx]; exact hg
        · exact h1 x (by omega) (by omega)

/-- For factors of at least one whose product fits in 64 bits, `mr_make_keys`
searches the candidates 3..9 against the exact `phi = (p - 1) * (q - 1)` and the
exact modulus `p * q`. -/
theorem mr_make_keys_eq (p q : Nat) (hp : 1 ≤ p) (hq : 1 ≤ q) (hpq : p * q < U64) :
    mr_make_keys p q = keySearch ((p - 1) * (q - 1)) (p * q) (List.range' 3 7) := by
  have hW : U64 = 18446744073709551616 := U64_eq
  have hp1 : p < U64 := lt_of_le_of_lt (Nat.le_mul_of_pos_right p (by omega)) hpq
  have hq1 : q < U64 := lt_of_le_of_lt (Nat.le_mul_of_pos_left q (by omega)) hpq
  have hphi : (p - 1) * (q - 1) ≤ p * q := Nat.mul_le_mul (Nat.sub_le _ _) (Nat.sub_le _ _)
  unfold mr_make_keys
  simp only [not_le.2 hpq, if_false]
  rw [mul64_of_lt hpq, sub64_of_le hp1 hp, sub64_of_le hq1 hq,
    mul64_of_lt (lt_of_le_of_lt hphi hpq)]
  rfl

/-- For primes the totient is at least two unless both primes are two. -/
theorem phi_ge_two {p q : Nat} (hp : p.Prime) (hq : q.Prime) (h : ¬(p = 2 ∧ q = 2)) :
    2 ≤ (p - 1) * (q - 1) := by
  have h2p := hp.two_le
  have h2q := hq.two_le
  by_cases hp2 : p = 2
  · have : 3 ≤ q := by
      by_contra hc
      exact h ⟨hp2, by omega⟩
    calc 2 ≤ 1 * 2 := by norm_num
      _ ≤ (p - 1) * (q - 1) := Nat.mul_le_mul (by omega) (by omega)
  · calc 2 ≤ 2 * 1 := by norm_num
      _ ≤ (p - 1) * (q - 1) := Nat.mul_le_mul (by omega) (by omega)

/-- The outcome of key derivation for primes whose product fits in 64 bits. -/
theorem mr_make_keys_prime (p q : Nat) (hp : p.Prime) (hq : q.Prime) (hpq : p * q < U64) :
    (∃ e d, 3 ≤ e ∧ e ≤ 9 ∧ 2 ≤ (p - 1) * (q - 1) ∧ Nat.gcd e ((p - 1) * (q - 1)) = 1 ∧
        (∀ x, 3 ≤ x → x < e → Nat.gcd x ((p - 1) * (q - 1)) ≠ 1) ∧
        d < (p - 1) * (q - 1) ∧ (e * d) % ((p - 1) * (q - 1)) = 1 ∧
        mr_make_keys p q = some (KeyGen.keys e d (p * q))) ∨
      (((p = 2 ∧ q = 2) ∨ ∀ x, 3 ≤ x → x ≤ 9 → Nat.gcd x ((p - 1) * (q - 1)) ≠ 1) ∧
        mr_make_keys p q = some KeyGen.noKeyset) := by
  have hW : U64 = 18446744073709551616 := U64_eq
  by_cases h22 : p = 2 ∧ q = 2
  · obtain ⟨rfl, rfl⟩ := h22
    exact Or.inr ⟨Or.inl ⟨rfl, rfl⟩, by decide⟩
  · have hphi2 := phi_ge_two hp hq h22
    have hphi : (p - 1) * (q - 1) ≤ p * q := Nat.mul_le_mul (Nat.sub_le _ _) (Nat.sub_le _ _)
    rw [mr_make_keys_eq p q hp.one_lt.le hq.one_lt.le hpq]
    rcases keySearch_range ((p - 1) * (q - 1)) (p * q) hphi2 (lt_of_le_of_lt hphi hpq) 7 3
        (by omega) with ⟨e, d, h1, h2, h3, h4, h5, h6, h7⟩ | ⟨h1, h2⟩
    · exact Or.inl ⟨e, d, h1, by omega, hphi2, h3, h4, h5, h6, h7⟩
    · exact Or.inr ⟨Or.inr (fun x hx1 hx2 => h1 x hx1 (by omega)), h2⟩

/-! ## The claims -/

set_option maxRecDepth 100000

/-- C1: the RSA round trip fails for a modulus above `2 ^ 32`.  The primes 65537
and 65539 have a product below `2 ^ 64`; key derivation succeeds with `e = 5` and
`d = 2577059021`; the message `m = n - 1` is below the modulus, yet its encryption
decrypts to 817115316, because the 64-bit products in `modpow` wrap. -/
theorem C1_roundtrip_breaks_above_2_pow_32 :
    Nat.Prime 65537 ∧ Nat.Prime 65539 ∧ 65537 ≠ 65539 ∧ 65537 * 65539 < 2 ^ 64 ∧
    Nat.gcd 5 ((65537 - 1) * (65539 - 1)) = 1 ∧
    mr_make_keys 65537 65539 = some (KeyGen.keys 5 2577059021 4295229443) ∧
    4295229442 < 4295229443 ∧
    mr_encrypt 4295229442 ⟨5, 4295229443⟩ = some 209718400 ∧
    mr_decrypt 209718400 ⟨2577059021, 4295229443⟩ = some 817115316 ∧
    817115316 ≠ 4295229442 := by
  refine ⟨by norm_num, by norm_num, by decide, by decide, by decide, by decide, by decide,
    by decide, by decide, by decide⟩

/-- C2: the cipher round trip loses plaintext.  With the keys derived from 61 and
53, whose modulus 3233 exceeds the chunk code 65 of the plaintext "A",
`write_cipher` clears the only byte before encoding and writes the block 0, and
`read_cipher` then emits four bytes that were never written (to a file), or
prints a string that was never written (to standard output), not "A".  With the
keys derived from 13001 and 13411, whose modulus exceeds the chunk code
174154339 of the four bytes 0A 61 62 63, the block decrypts to that code, but
`mr_decode` pairs the seven digits of `A616263` from the left and the bytes
emitted are A6 16 26 03. -/
theorem C2_plaintext_not_recovered :
    mr_make_keys 61 53 = some (KeyGen.keys 7 1783 3233) ∧
    (∀ sc : Bool, mr_encode sc [some 65, some 0] = some 65) ∧ 65 < 3233 ∧
    (∀ sc : Bool, write_cipher sc ⟨7, 3233⟩ [65] = some [0, 0, 0, 0, 0, 0, 0, 0]) ∧
    read_cipher true ⟨1783, 3233⟩ [0, 0, 0, 0, 0, 0, 0, 0] = some [none, none, none, none] ∧
    read_cipher false ⟨1783, 3233⟩ [0, 0, 0, 0, 0, 0, 0, 0] = none ∧
    Nat.Prime 13001 ∧ Nat.Prime 13411 ∧
    mr_make_keys 13001 13411 = some (KeyGen.keys 7 99617143 174356411) ∧
    (∀ sc : Bool, mr_encode sc [some 10, some 97, some 98, some 99, some 0] = some 174154339) ∧
    174154339 < 174356411 ∧
    (∀ sc : Bool, write_cipher sc ⟨7, 174356411⟩ [10, 97, 98, 99]
      = some [199, 35, 184, 1, 0, 0, 0, 0]) ∧
    mr_decrypt 28844999 ⟨99617143, 174356411⟩ = some 174154339 ∧
    read_cipher true ⟨99617143, 174356411⟩ [199, 35, 184, 1, 0, 0, 0, 0]
      = some [some 166, some 22, some 38, some 3] := by
  refine ⟨by decide, by decide, by decide, by decide, by decide, by decide, by norm_num,
    by norm_num, by decide, by decide, by decide, by decide, by decide, by decide⟩

/-- C3: for `p = 61`, `q = 53` key derivation writes the modulus 3233, where
`phi = 3120`; the public exponent is 7, the first of 3..9 coprime to 3120; the
private exponent is 1783, with `1783 * 7 mod 3120 = 1`; and decrypting the
encryption of 65 returns 65. -/
theorem C3_scenario_61_53 :
    mr_make_keys 61 53 = some (KeyGen.keys 7 1783 3233) ∧
    61 * 53 = 3233 ∧ (61 - 1) * (53 - 1) = 3120 ∧
    Nat.gcd 3 3120 ≠ 1 ∧ Nat.gcd 4 3120 ≠ 1 ∧ Nat.gcd 5 3120 ≠ 1 ∧ Nat.gcd 6 3120 ≠ 1 ∧
    Nat.gcd 7 3120 = 1 ∧ inverse 7 3120 = some 1783 ∧ (1783 * 7) % 3120 = 1 ∧
    (mr_encrypt 65 ⟨7, 3233⟩).bind (fun c => mr_decrypt c ⟨1783, 3233⟩) = some 65 := by
  refine ⟨by decide, by decide, by decide, by decide, by decide, by decide, by decide,
    by decide, by decide, by decide, by decide⟩

/-- C4: for primes `p`, `q` whose product fits in 64 bits, the exponents that a
successful `mr_make_keys` writes satisfy `d * e ≡ 1` modulo `(p - 1) * (q - 1)`. -/
theorem C4_exponents_inverse (p q e d n : Nat) (hp : p.Prime) (hq : q.Prime)
    (hpq : p * q < 2 ^ 64) (h : mr_make_keys p q = some (KeyGen.keys e d n)) :
    d * e ≡ 1 [MOD (p - 1) * (q - 1)] := by
  rcases mr_make_keys_prime p q hp hq hpq with ⟨e1, d1, _, _, h2, _, _, _, hmod, hk⟩ | ⟨_, hk⟩
  · rw [hk] at h
    simp only [Option.some.injEq, KeyGen.keys.injEq] at h
    obtain ⟨rfl, rfl, rfl⟩ := h
    show (d1 * e1) % ((p - 1) * (q - 1)) = 1 % ((p - 1) * (q - 1))
    rw [Nat.mul_comm, hmod, Nat.mod_eq_of_lt (by omega)]
  · rw [hk] at h
    simp at h

/-- Witness of C4 at `p = 61`, `q = 53`. -/
theorem C4_exponents_inverse_witness :
    mr_make_keys 61 53 = some (KeyGen.keys 7 1783 3233) ∧
    1783 * 7 ≡ 1 [MOD (61 - 1) * (53 - 1)] :=
  ⟨by decide, C4_exponents_inverse 61 53 7 1783 3233 (by norm_num) (by norm_num) (by decide)
    (by decide)⟩

/-- C5: for primes `p`, `q` whose product fits in 64 bits, the public exponent
that a successful `mr_make_keys` writes is the smallest of 3..9 coprime to
`(p - 1) * (q - 1)`. -/
theorem C5_smallest_candidate (p q e d n : Nat) (hp : p.Prime) (hq : q.Prime)
    (hpq : p * q < 2 ^ 64) (h : mr_make_keys p q = some (KeyGen.keys e d n)) :
    3 ≤ e ∧ e ≤ 9 ∧ Nat.Coprime e ((p - 1) * (q - 1)) ∧
    ∀ x, 3 ≤ x → x < e → ¬ Nat.Coprime x ((p - 1) * (q - 1)) := by
  rcases mr_make_keys_prime p q hp hq hpq with ⟨e1, d1, h1, h2, _, h3, h4, _, _, hk⟩ | ⟨_, hk⟩
  · rw [hk] at h
    simp only [Option.some.injEq, KeyGen.keys.injEq] at h
    obtain ⟨rfl, rfl, rfl⟩ := h
    exact ⟨h1, h2, h3, h4⟩
  · rw [hk] at h
    simp at h

/-- Witness of C5 at `p = 61`, `q = 53`. -/
theorem C5_smallest_candidate_witness :
    mr_make_keys 61 53 = some (KeyGen.keys 7 1783 3233) ∧
    (3 ≤ 7 ∧ 7 ≤ 9 ∧ Nat.Coprime 7 ((61 - 1) * (53 - 1)) ∧
      ∀ x, 3 ≤ x → x < 7 → ¬ Nat.Coprime x ((61 - 1) * (53 - 1))) :=
  ⟨by decide, C5_smallest_candidate 61 53 7 1783 3233 (by norm_num) (by norm_num) (by decide)
    (by decide)⟩

/-- C6, as stated, fails at `p = q = 2`: there `phi = 1`, every candidate of 3..9
is coprime to it, and key derivation still ends in "no keyset", because the
inverse modulo one is 0, the value `inverse` also returns for "no inverse". -/
theorem C6_counterexample_two_two :
    Nat.Prime 2 ∧ 2 * 2 < 2 ^ 64 ∧
    (∃ x, 3 ≤ x ∧ x ≤ 9 ∧ Nat.Coprime x ((2 - 1) * (2 - 1))) ∧
    inverse 3 ((2 - 1) * (2 - 1)) = some 0 ∧
    mr_make_keys 2 2 = some KeyGen.noKeyset :=
  ⟨by norm_num, by decide, ⟨3, by decide, by decide, by decide⟩, by decide, by decide⟩

/-- C6, amended: for primes `p`, `q`, not both 2, whose product fits in 64 bits,
key derivation succeeds with a pair `(e, d)` and the modulus `p * q` exactly when
some candidate of 3..9 is coprime to `phi = (p - 1) * (q - 1)`, and it ends in
"no keyset" exactly when no candidate is. -/
theorem C6_success_iff_candidate (p q : Nat) (hp : p.Prime) (hq : q.Prime)
    (hpq : p * q < 2 ^ 64) (h22 : ¬(p = 2 ∧ q = 2)) :
    ((∃ x, 3 ≤ x ∧ x ≤ 9 ∧ Nat.Coprime x ((p - 1) * (q - 1))) ↔
      ∃ e d, mr_make_keys p q = some (KeyGen.keys e d (p * q))) ∧
    ((∀ x, 3 ≤ x → x ≤ 9 → ¬ Nat.Coprime x ((p - 1) * (q - 1))) ↔
      mr_make_keys p q = some KeyGen.noKeyset) := by
  rcases mr_make_keys_prime p q hp hq hpq with
    ⟨e1, d1, h1, h2, _, h3, _, _, _, hk⟩ | ⟨hno | hno, hk⟩
  · refine ⟨⟨fun _ => ⟨e1, d1, hk⟩, fun _ => ⟨e1, h1, h2, h3⟩⟩, ⟨fun hall => ?_, fun hn => ?_⟩⟩
    · exact absurd h3 (hall e1 h1 h2)
    · rw [hk] at hn
      simp at hn
  · exact absurd hno h22
  · refine ⟨⟨fun hex => ?_, fun hex => ?_⟩, ⟨fun _ => hk, fun _ => hno⟩⟩
    · obtain ⟨x, hx1, hx2, hx3⟩ := hex
      exact absurd hx3 (hno x hx1 hx2)
    · obtain ⟨e, d, hed⟩ := hex
      rw [hk] at hed
      simp at hed

/-- Witness of the amended C6 at `p = 61`, `q = 53`. -/
theorem C6_success_iff_candidate_witness :
    ((∃ x, 3 ≤ x ∧ x ≤ 9 ∧ Nat.Coprime x ((61 - 1) * (53 - 1))) ↔
      ∃ e d, mr_make_keys 61 53 = some (KeyGen.keys e d (61 * 53))) ∧
    ((∀ x, 3 ≤ x → x ≤ 9 → ¬ Nat.Coprime x ((61 - 1) * (53 - 1))) ↔
      mr_make_keys 61 53 = some KeyGen.noKeyset) :=
  C6_success_iff_candidate 61 53 (by norm_num) (by norm_num) (by decide) (by decide)

/-- C7: `mr_make_keys` reports the overflow exactly when the product `p * q` is at
least `2 ^ 64`; otherwise it ends in "no keyset" or writes a key set whose modulus
is the exact product `p * q`. -/
theorem C7_overflow_exact (p q : Nat) :
    (mr_make_keys p q = some KeyGen.overflow ↔ 2 ^ 64 ≤ p * q) ∧
    (mr_make_keys p q = some KeyGen.overflow ∨ mr_make_keys p q = some KeyGen.noKeyset ∨
      ∃ e d, mr_make_keys p q = some (KeyGen.keys e d (p * q))) := by
  have hU : U64 = 2 ^ 64 := rfl
  by_cases hov : U64 ≤ p * q
  · have hk : mr_make_keys p q = some KeyGen.overflow := by
      unfold mr_make_keys
      simp [hov]
    exact ⟨⟨fun _ => hU ▸ hov, fun _ => hk⟩, Or.inl hk⟩
  · have hk : mr_make_keys p q = keySearch (mul64 (sub64 p 1) (sub64 q 1)) (p * q)
        [3, 4, 5, 6, 7, 8, 9] := by
      unfold mr_make_keys
      simp only [hov, if_false]
      rw [mul64_of_lt (not_le.1 hov)]
    have hl : ∀ e ∈ [3, 4, 5, 6, 7, 8, 9], e < U64 := by
      rw [U64_eq]
      decide
    rcases keySearch_total (mul64 (sub64 p 1) (sub64 q 1)) (p * q) (mul64_lt _ _) _ hl with
      h | ⟨e, d, h⟩
    · rw [← hk] at h
      refine ⟨⟨fun ho => ?_, fun hge => absurd (hU ▸ hge) hov⟩, Or.inr (Or.inl h)⟩
      rw [h] at ho
      simp at ho
    · rw [← hk] at h
      refine ⟨⟨fun ho => ?_, fun hge => absurd (hU ▸ hge) hov⟩, Or.inr (Or.inr ⟨e, d, h⟩)⟩
      rw [h] at ho
      simp at ho

/-- C8, as stated, fails at the modulus 1: `gcd(1, 1) = 1` and `inverse(1, 1)`
returns 1, but no product has remainder 1 modulo 1. -/
theorem C8_counterexample_modulus_one :
    Nat.gcd 1 1 = 1 ∧ inverse 1 1 = some 1 ∧ (1 * 1) % 1 ≠ 1 := by
  refine ⟨by decide, by decide, by decide⟩

/-- C8, amended: for 64-bit `a` and `n` with `n ≥ 2` and `gcd(a, n) = 1`,
`inverse(a, n)` returns a value `t` with `(a * t) mod n = 1`, the product taken
over the integers. -/
theorem C8_inverse_correct (a n : Nat) (ha : a < 2 ^ 64) (hn : n < 2 ^ 64) (hn2 : 2 ≤ n)
    (hg : Nat.gcd a n = 1) : ∃ t, inverse a n = some t ∧ (a * t) % n = 1 := by
  obtain ⟨t, h1, _, h3⟩ := inverse_of_coprime a n ha hn hn2 hg
  exact ⟨t, h1, h3⟩

/-- Witness of the amended C8 at `a = 7`, `n = 3120`. -/
theorem C8_inverse_correct_witness :
    Nat.gcd 7 3120 = 1 ∧ ∃ t, inverse 7 3120 = some t ∧ (7 * t) % 3120 = 1 :=
  ⟨by decide, C8_inverse_correct 7 3120 (by decide) (by decide) (by decide) (by decide)⟩

/-- C9: for 64-bit `a` and `n` with `n ≥ 2`, `inverse(a, n)` returns, and what it
returns is the sentinel 0 if and only if `gcd(a, n) ≠ 1`. -/
theorem C9_sentinel_iff_not_coprime (a n : Nat) (ha : a < 2 ^ 64) (hn : n < 2 ^ 64)
    (hn2 : 2 ≤ n) :
    (∃ t, inverse a n = some t) ∧ (inverse a n = some 0 ↔ Nat.gcd a n ≠ 1) := by
  refine ⟨inverse_total a n ha hn, ⟨fun h0 hg => ?_, fun hg => ?_⟩⟩
  · obtain ⟨t, h1, _, h3⟩ := inverse_of_coprime a n ha hn hn2 hg
    rw [h0] at h1
    simp only [Option.some.injEq] at h1
    subst h1
    simp at h3
  · exact inverse_of_not_coprime a n ha hn hn2 hg

/-- Witness of C9 at `a = 6`, `n = 3120`. -/
theorem C9_sentinel_iff_not_coprime_witness :
    2 ≤ 3120 ∧ ((∃ t, inverse 6 3120 = some t) ∧
      (inverse 6 3120 = some 0 ↔ Nat.gcd 6 3120 ≠ 1)) :=
  ⟨by decide, C9_sentinel_iff_not_coprime 6 3120 (by decide) (by decide) (by decide)⟩

/-- C10: `modpow` with the exponent 0 has no defined result, for every base and
modulus: the table length is computed from `log2(0)`, minus infinity, which has
no `int` value; the value 1 is not returned. -/
theorem C10_modpow_exponent_zero_undefined (x z : Nat) : modpow x 0 z = none := rfl

/-! ## Later claims: the cipher file, the codec at fixed inputs -/

/-- The loop of `inverse` never leaves the 64-bit range with `t`. -/
theorem inverseLoop_lt : ∀ (fuel t newt r newr t1 r1 : Nat), t < U64 → newt < U64 →
    inverseLoop fuel t newt r newr = some (t1, r1) → t1 < U64
  | 0, _, _, _, _, _, _, _, _, h => by simp [inverseLoop] at h
  | fuel + 1, t, newt, r, newr, t1, r1, ht, hnt, h => by
    unfold inverseLoop at h
    by_cases h0 : newr = 0
    · simp only [h0, if_true, Option.some.injEq, Prod.mk.injEq] at h
      omega
    · simp only [h0, if_false] at h
      exact inverseLoop_lt fuel newt _ newr _ t1 r1 hnt (sub64_lt _ _) h

/-- For `n ≥ 2` and `a` coprime to `n`: the loop of `inverse` ends with `r = 1` and
a coefficient `t1`; `inverse` returns `t1` itself when it is not negative and
`t1 + n`, the sum taken over the integers with `t1` read as a signed number, when
it is; the value returned is below `n`. -/
theorem inverse_normalised (a n : Nat) (ha : a < U64) (hn : n < U64) (hn2 : 2 ≤ n)
    (hg : Nat.gcd a n = 1) :
    ∃ t1 t, inverseLoop (a + 1) 0 1 n a = some (t1, 1) ∧ inverse a n = some t ∧ t < n ∧
      (isNeg64 t1 = true → t1 + n = t + U64) ∧ (isNeg64 t1 = false → t = t1) := by
  have hW : U64 = 18446744073709551616 := U64_eq
  have hne : a ≠ n := by
    rintro rfl
    rw [Nat.gcd_self] at hg
    omega
  have main : ∃ t1, inverseLoop (a + 1) 0 1 n a = some (t1, 1) ∧
      (if isNeg64 t1 then add64 t1 n else t1) < n ∧
      (a * (if isNeg64 t1 then add64 t1 n else t1)) % n = 1 := by
    rcases Nat.lt_or_gt_of_ne hne with hlt | hgt
    · exact inverseLoop_result a n a (a + 1) hn2 hn hlt (by omega) (by simp)
        (by rw [Nat.gcd_comm]; exact hg)
    · rw [inverseLoop_swap a n (by omega) hgt ha]
      have hmod : a % n < n := Nat.mod_lt _ (by omega)
      refine inverseLoop_result a n (a % n) (a - 1) hn2 hn hmod (by omega) ?_ ?_
      · exact (Int.modEq_iff_dvd).1 (Int.natCast_modEq_iff.2 (Nat.mod_modEq a n))
      · rw [Nat.gcd_comm, ← Nat.gcd_rec, Nat.gcd_comm]
        exact hg
  obtain ⟨t1, hloop, hlt, _⟩ := main
  have ht1 : t1 < U64 := inverseLoop_lt (a + 1) 0 1 n a t1 1 (by omega) (by omega) hloop
  by_cases hneg : isNeg64 t1 = true
  · simp only [hneg, if_true] at hlt
    refine ⟨t1, add64 t1 n, hloop, ?_, hlt, ?_, ?_⟩
    · unfold inverse
      rw [hloop]
      simp [hneg]
    · intro _
      have h63 : 2 ^ 63 ≤ t1 := by simpa [isNeg64] using hneg
      have hn1 : n < 18446744073709551616 := hW ▸ hn
      have ht2 : t1 < 18446744073709551616 := hW ▸ ht1
      have hlt2 : (t1 + n) % 18446744073709551616 < n := by
        have := hlt
        unfold add64 at this
        rwa [hW] at this
      show t1 + n = (t1 + n) % U64 + U64
      rw [hW]
      omega
    · intro h
      rw [hneg] at h
      exact absurd h (by simp)
  · simp only [hneg, if_false] at hlt
    refine ⟨t1, t1, hloop, ?_, hlt, ?_, ?_⟩
    · unfold inverse
      rw [hloop]
      simp [hneg]
    · intro h
      exact absurd h hneg
    · intro _
      rfl

/-- For primes not both two, the totient `(p - 1) * (q - 1)` is even. -/
theorem phi_even {p q : Nat} (hp : p.Prime) (hq : q.Prime) (h : ¬(p = 2 ∧ q = 2)) :
    2 ∣ (p - 1) * (q - 1) := by
  have h2p := hp.two_le
  have h2q := hq.two_le
  rcases hp.eq_two_or_odd with hp2 | hpo
  · rcases hq.eq_two_or_odd with hq2 | hqo
    · exact absurd ⟨hp2, hq2⟩ h
    · exact Dvd.dvd.mul_left (by omega) _
  · exact Dvd.dvd.mul_right (by omega) _

/-- A power of two with a positive exponent is even. -/
theorem two_pow_even (k : Nat) (hk : 1 ≤ k) : 2 ^ k % 2 = 0 := by
  obtain ⟨j, rfl⟩ : ∃ j, k = j + 1 := ⟨k - 1, by omega⟩
  rw [Nat.pow_succ]
  omega

/-- The exponents a successful key derivation writes: `e` is 3, 5 or 7 and `d` is
odd. -/
theorem keys_shape (p q e d n : Nat) (hp : p.Prime) (hq : q.Prime) (hpq : p * q < U64)
    (h : mr_make_keys p q = some (KeyGen.keys e d n)) :
    (e = 3 ∨ e = 5 ∨ e = 7) ∧ d % 2 = 1 := by
  rcases mr_make_keys_prime p q hp hq hpq with
    ⟨e1, d1, h1, h2, hphi2, h3, h4, _, hmod, hk⟩ | ⟨_, hk⟩
  · rw [hk] at h
    simp only [Option.some.injEq, KeyGen.keys.injEq] at h
    obtain ⟨rfl, rfl, rfl⟩ := h
    have h22 : ¬(p = 2 ∧ q = 2) := by
      rintro ⟨rfl, rfl⟩
      norm_num at hphi2
    have hev := phi_even hp hq h22
    have hodd : e1 % 2 = 1 := by
      by_contra hc
      have h2e : 2 ∣ e1 := Nat.dvd_of_mod_eq_zero (by omega)
      have := Nat.dvd_gcd h2e hev
      rw [h3] at this
      omega
    have h9 : e1 ≠ 9 := by
      rintro rfl
      have hg3 := h4 3 (by omega) (by omega)
      have hd3 : Nat.gcd 3 ((p - 1) * (q - 1)) ∣ 3 := Nat.gcd_dvd_left _ _
      rcases (Nat.dvd_prime Nat.prime_three).1 hd3 with h1g | h3g
      · exact hg3 h1g
      · have h3phi : 3 ∣ (p - 1) * (q - 1) := h3g ▸ Nat.gcd_dvd_right 3 _
        have := Nat.dvd_gcd (show 3 ∣ 9 by norm_num) h3phi
        rw [h3] at this
        omega
    have hed : (e1 * d1) % 2 = 1 := by
      rw [← Nat.mod_mod_of_dvd (e1 * d1) hev, hmod]
    have hd : d1 % 2 = 1 := by
      rcases Nat.mod_two_eq_zero_or_one d1 with h0 | h1d
      · rw [Nat.mul_mod, h0] at hed
        simp at hed
      · exact h1d
    exact ⟨by omega, hd⟩
  · rw [hk] at h
    simp at h

/-! ## The claims, continued -/

/-- C12: decoding the code of a chunk of non-null bytes does not give the chunk
back.  The chunk 0A 61 62 63 has the code 174154339, whose decoding is
A6 16 26 03; the chunk 01 01 has the code 257, whose decoding is the one byte 10;
the chunk 09 has the code 9, whose decoding stores no byte at all. -/
theorem C12_decode_encode_differs :
    (∀ sc : Bool, mr_encode sc [some 10, some 97, some 98, some 99, some 0] = some 174154339) ∧
    mr_decode 174154339 = some [some 166, some 22, some 38, some 3, none] ∧
    (∀ sc : Bool, mr_encode sc [some 1, some 1, some 0] = some 257) ∧
    mr_decode 257 = some [some 16, none, none, none, none] ∧
    (∀ sc : Bool, mr_encode sc [some 9, some 0] = some 9) ∧
    mr_decode 9 = some [none, none, none, none, none] := by
  refine ⟨by decide, by decide, by decide, by decide, by decide, by decide⟩

/-- C15: `mr_decode` does not pad the hexadecimal rendering to an even number of
digits, and does not take its byte count from it.  The code 257, `101` in
hexadecimal, gives the one byte 10, not the two bytes 01 01; the code 9 gives no
byte, not the byte 09; the code 174154339, `A616263`, gives A6 16 26 03, not
0A 61 62 63; the code 16777215, `FFFFFF`, gives a fourth byte 00 after FF FF FF. -/
theorem C15_decode_not_base_256 :
    mr_decode 257 = some [some 16, none, none, none, none] ∧
    mr_decode 9 = some [none, none, none, none, none] ∧
    mr_decode 174154339 = some [some 166, some 22, some 38, some 3, none] ∧
    mr_decode 16777215 = some [some 255, some 255, some 255, some 0, none] := by
  refine ⟨by decide, by decide, by decide, by decide⟩

/-- C16: the final short chunk is not encoded from the last `L mod 4` input bytes.
For the two-byte input "AB" the block written is the encryption of the code 65 of
"A" alone, not of the code 16706 of "AB"; for the five-byte input "ABCDE" the
padding stores fall outside `sub` and the chunk is read from buffer bytes never
written, so no block is defined. -/
theorem C16_final_chunk_not_padded :
    (∀ sc : Bool, write_cipher sc ⟨7, 174356411⟩ [65, 66] = some [229, 139, 95, 1, 0, 0, 0, 0]) ∧
    (∀ sc : Bool, mr_encode sc [some 65, some 0] = some 65) ∧
    mr_encrypt 65 ⟨7, 174356411⟩ = some 23038949 ∧
    u64Bytes 23038949 = [229, 139, 95, 1, 0, 0, 0, 0] ∧
    (∀ sc : Bool, mr_encode sc [some 65, some 66, some 0] = some 16706) ∧
    mr_encrypt 16706 ⟨7, 174356411⟩ = some 20262051 ∧
    (∀ sc : Bool, write_cipher sc ⟨7, 174356411⟩ [65, 66, 67, 68, 69] = none) := by
  refine ⟨by decide, by decide, by decide, by decide, by decide, by decide, by decide⟩

/-- C17: `modpow` is not `x ^ y mod z` on all 64-bit arguments.  For the exponent
2 the table entry `mods[1]` is read but never written, so `modpow(2, 2, 5)` has no
defined value; for the modulus 4295229443, above `2 ^ 32`, the product of two
residues wraps and `modpow(4295229442, 5, 4295229443)` is 209718400 while the
power is 4295229442. -/
theorem C17_modpow_not_power :
    fillMods 5 2 2 = some [some 2, none] ∧ modpow 2 2 5 = none ∧ 2 ^ 2 % 5 = 4 ∧
    modpow 4295229442 5 4295229443 = some 209718400 ∧
    4295229442 ^ 5 % 4295229443 = 4295229442 ∧
    2 ^ 64 ≤ 4295229442 * 4295229442 := by
  refine ⟨by decide, by decide, by decide, by decide, by decide, by decide⟩

/-- C18, as stated, fails at `n = 1`: `gcd(1, 1) = 1` and `inverse(1, 1)` returns 1,
which is not below 1. -/
theorem C18_counterexample_modulus_one :
    1 ≤ 1 ∧ Nat.gcd 1 1 = 1 ∧ inverse 1 1 = some 1 ∧ ¬ (1 < 1) := by
  refine ⟨by decide, by decide, by decide, by decide⟩

/-- C18, amended: for 64-bit `a` and `n` with `n ≥ 2` and `gcd(a, n) = 1`, the loop
of `inverse` ends with a coefficient `t1`, and the value `inverse` returns lies
below `n`: it is `t1` itself when `t1` is not negative, and `t1 + n` over the
integers, `n` added once to the signed value `t1 - 2 ^ 64`, when it is. -/
theorem C18_inverse_in_range (a n : Nat) (ha : a < 2 ^ 64) (hn : n < 2 ^ 64) (hn2 : 2 ≤ n)
    (hg : Nat.gcd a n = 1) :
    ∃ t1 t, inverseLoop (a + 1) 0 1 n a = some (t1, 1) ∧ inverse a n = some t ∧ t < n ∧
      (isNeg64 t1 = true → t1 + n = t + 2 ^ 64) ∧ (isNeg64 t1 = false → t = t1) :=
  inverse_normalised a n ha hn hn2 hg

/-- Witness of the amended C18 at `a = 3`, `n = 2 ^ 64 - 3`, a modulus above
`2 ^ 63`. -/
theorem C18_inverse_in_range_witness :
    2 ^ 63 ≤ 18446744073709551613 ∧ Nat.gcd 3 18446744073709551613 = 1 ∧
    ∃ t1 t, inverseLoop (3 + 1) 0 1 18446744073709551613 3 = some (t1, 1) ∧
      inverse 3 18446744073709551613 = some t ∧ t < 18446744073709551613 ∧
      (isNeg64 t1 = true → t1 + 18446744073709551613 = t + 2 ^ 64) ∧
      (isNeg64 t1 = false → t = t1) :=
  ⟨by decide, by decide,
    C18_inverse_in_range 3 18446744073709551613 (by decide) (by decide) (by decide) (by decide)⟩

/-! ## `modpow` on its defined domain -/

/-- The first element of a run of consecutive numbers at which a threshold
predicate holds is the threshold. -/
theorem find_threshold (p : Nat → Bool) (c : Nat) (hp : ∀ k, p k = true ↔ c ≤ k) :
    ∀ (n s : Nat), s ≤ c → c < s + n → (List.range' s n).find? p = some c
  | 0, s, h1, h2 => by omega
  | n + 1, s, h1, h2 => by
    rw [List.range'_succ, List.find?_cons]
    by_cases hs : c ≤ s
    · have : s = c := by omega
      subst this
      rw [(hp s).2 hs]
    · have hf : p s = false := by
        rcases hb : p s with _ | _
        · rfl
        · exact absurd ((hp s).1 hb) hs
      rw [hf]
      exact find_threshold p c hp n (s + 1) (by omega) (by omega)

/-- For `1 ≤ y < 2 ^ 64`, `floorLog2 y` is the exponent `e` with `2 ^ e ≤ y < 2 ^ (e + 1)`. -/
theorem floorLog2_spec (y : Nat) (h1 : 1 ≤ y) (h2 : y < 2 ^ 64) :
    2 ^ floorLog2 y ≤ y ∧ y < 2 ^ (floorLog2 y + 1) ∧ floorLog2 y ≤ 63 := by
  have hy0 : y ≠ 0 := by omega
  have hiff : ∀ e, y < 2 ^ (e + 1) ↔ Nat.log 2 y ≤ e := fun e => by
    rw [Nat.lt_pow_iff_log_lt (by norm_num) hy0]
    omega
  have h63 : Nat.log 2 y ≤ 63 := (hiff 63).1 h2
  have hfind : (List.range 64).find? (fun e => decide (y < 2 ^ (e + 1))) = some (Nat.log 2 y) := by
    rw [List.range_eq_range']
    apply find_threshold _ _ _ 64 0 (Nat.zero_le _) (by omega)
    intro k
    simp only [decide_eq_true_eq]
    exact hiff k
  have hfl : floorLog2 y = Nat.log 2 y := by
    unfold floorLog2
    rw [hfind]
    rfl
  rw [hfl]
  exact ⟨Nat.pow_log_le_self 2 hy0, (hiff _).2 (le_refl _), h63⟩

/-- For `1 ≤ y < 2 ^ 49` the index computation of `modpow` yields the exact ceiling
of the logarithm: the least `l` with `y ≤ 2 ^ l`. -/
theorem ceilLog2_spec (y : Nat) (h1 : 1 ≤ y) (h2 : y < 2 ^ 49) :
    ∃ l, ceilLog2 y = some l ∧ y ≤ 2 ^ l ∧ ∀ k, y ≤ 2 ^ k → l ≤ k := by
  have h64 : y < 2 ^ 64 := lt_of_lt_of_le h2 (Nat.pow_le_pow_right (by norm_num) (by norm_num))
  obtain ⟨hlo, hhi, _⟩ := floorLog2_spec y h1 h64
  have he : floorLog2 y ≤ 48 := by
    by_contra hc
    have : (2 : Nat) ^ 49 ≤ 2 ^ floorLog2 y := Nat.pow_le_pow_right (by norm_num) (by omega)
    omega
  have hoff : doubleOffset y = (y - 2 ^ floorLog2 y) * 2 ^ (52 - floorLog2 y) := by
    unfold doubleOffset
    simp only [show floorLog2 y ≤ 52 from by omega, if_true]
  unfold ceilLog2
  rw [if_neg (by omega), hoff]
  by_cases hy : y = 2 ^ floorLog2 y
  · refine ⟨floorLog2 y, ?_, hy.le, fun k hk => ?_⟩
    · rw [if_pos]
      rw [← hy, Nat.sub_self, Nat.zero_mul]
      omega
    · rw [hy] at hk
      exact (Nat.pow_le_pow_iff_right (by norm_num)).1 hk
  · have hgt : 2 ^ floorLog2 y < y := lt_of_le_of_ne hlo (Ne.symm hy)
    refine ⟨floorLog2 y + 1, ?_, hhi.le, fun k hk => ?_⟩
    · rw [if_neg]
      have h16 : (2 : Nat) ^ 4 ≤ 2 ^ (52 - floorLog2 y) :=
        Nat.pow_le_pow_right (by norm_num) (by omega)
      have hmul : 1 * 2 ^ 4 ≤ (y - 2 ^ floorLog2 y) * 2 ^ (52 - floorLog2 y) :=
        Nat.mul_le_mul (by omega) h16
      norm_num at hmul
      omega
    · have : 2 ^ floorLog2 y < 2 ^ k := lt_of_lt_of_le hgt hk
      have := (Nat.pow_lt_pow_iff_right (by norm_num : 1 < 2)).1 this
      omega

/-- The passes `s, s + 1, ..., s + n - 1` of the first loop of `modpow`, started
on a table whose entries below `s` are written, write the entries below `s + n`
and leave the others as they are. -/
theorem fill_fold (x z : Nat) (hz : z ≠ 0) : ∀ (n s : Nat) (mods : List (Option Nat)),
    1 ≤ s → s + n ≤ mods.length →
    (∀ k, k < s → mods.get? k = some (some (modsVal x z k))) →
    ∃ mods1, (List.range' s n).foldlM (fillStep z) mods = some mods1 ∧
      mods1.length = mods.length ∧
      (∀ k, k < s + n → mods1.get? k = some (some (modsVal x z k))) ∧
      (∀ k, s + n ≤ k → mods1.get? k = mods.get? k)
  | 0, s, mods, _, _, hw => ⟨mods, rfl, rfl, fun k hk => hw k (by omega), fun _ _ => rfl⟩
  | n + 1, s, mods, hs, hlen, hw => by
    obtain ⟨j, rfl⟩ : ∃ j, s = j + 1 := ⟨s - 1, by omega⟩
    have hstep : fillStep z mods (j + 1)
        = some (mods.set (j + 1) (some (modsVal x z (j + 1)))) := by
      unfold fillStep
      rw [Nat.add_sub_cancel, hw j (by omega)]
      simp only [hz, if_false]
      rfl
    obtain ⟨mods1, h1, h2, h3, h4⟩ := fill_fold x z hz n (j + 1 + 1)
      (mods.set (j + 1) (some (modsVal x z (j + 1)))) (by omega)
      (by rw [List.length_set]; omega)
      (by
        intro k hk
        by_cases hkj : k = j + 1
        · subst hkj
          simp only [List.get?_eq_getElem?]
          rw [List.getElem?_set_self (by omega)]
        · simp only [List.get?_eq_getElem?]
          rw [List.getElem?_set_ne (by omega)]
          have := hw k (by omega)
          simpa only [List.get?_eq_getElem?] using this)
    refine ⟨mods1, ?_, ?_, ?_, ?_⟩
    · rw [List.range'_succ, List.foldlM_cons, hstep]
      exact h1
    · rw [h2, List.length_set]
    · intro k hk
      exact h3 k (by omega)
    · intro k hk
      rw [h4 k (by omega)]
      simp only [List.get?_eq_getElem?]
      rw [List.getElem?_set_ne (by omega)]

/-- The table the first loop of `modpow` leaves for a nonzero modulus: `index`
entries, those below `index - 1` and the entry 0 written, the last one not when
there are at least two. -/
theorem fillMods_spec (x z index : Nat) (hz : z ≠ 0) (hidx : 1 ≤ index) :
    ∃ mods, fillMods z index x = some mods ∧
      (∀ k, k < index - 1 ∨ k = 0 → mods.get? k = some (some (modsVal x z k))) ∧
      (2 ≤ index → mods.get? (index - 1) = some none) := by
  have hinit0 : (modsInit index x).get? 0 = some (some (modsVal x z 0)) := by
    unfold modsInit
    simp only [List.get?_eq_getElem?]
    rw [List.getElem?_set_self (by rw [List.length_replicate]; omega)]
    rfl
  have hinitk : ∀ k, 1 ≤ k → k < index → (modsInit index x).get? k = some none := by
    intro k hk1 hk2
    unfold modsInit
    simp only [List.get?_eq_getElem?]
    rw [List.getElem?_set_ne (by omega), List.getElem?_replicate]
    simp [hk2]
  have hlen : (modsInit index x).length = index := by
    unfold modsInit
    rw [List.length_set, List.length_replicate]
  obtain ⟨mods1, h1, _, h3, h4⟩ := fill_fold x z hz (index - 2) 1 (modsInit index x)
    (le_refl _) (by omega)
    (by
      intro k hk
      have : k = 0 := by omega
      subst this
      exact hinit0)
  refine ⟨mods1, h1, ?_, ?_⟩
  · intro k hk
    by_cases h2 : 2 ≤ index
    · exact h3 k (by omega)
    · have : k = 0 := by omega
      subst this
      exact h3 0 (by omega)
  · intro h2
    rw [h4 (index - 1) (by omega)]
    exact hinitk (index - 1) (by omega) (by omega)

/-- The passes `n - 1, ..., 1, 0` of the second loop of `modpow`, over written
table entries and started with `y < 2 ^ n`, end with `y = 0`; a property of the
state `(val, y)` that every multiplying pass keeps holds at the end. -/
theorem combine_fold (x z : Nat) (hz : z ≠ 0) (mods : List (Option Nat))
    (P : Nat → Nat → Prop)
    (hP : ∀ i val yrem, P val yrem → 2 ^ i ≤ yrem →
      P (mul64 val (modsVal x z i) % z) (yrem - 2 ^ i)) :
    ∀ (n : Nat), n ≤ 64 → (∀ i, i < n → mods.get? i = some (some (modsVal x z i))) →
    ∀ (val yrem : Nat), yrem < 2 ^ n → P val yrem →
    ∃ val1, (List.range n).reverse.foldlM (combineStep z mods) (val, yrem) = some (val1, 0) ∧
      P val1 0
  | 0, _, _, val, yrem, hy, hp => by
    have : yrem = 0 := by
      simp only [pow_zero] at hy
      omega
    subst this
    exact ⟨val, rfl, hp⟩
  | n + 1, hn, hw, val, yrem, hy, hp => by
    rw [List.range_succ, List.reverse_append, List.reverse_singleton, List.singleton_append,
      List.foldlM_cons]
    have h2 : 2 ^ (n + 1) = 2 * 2 ^ n := by rw [Nat.pow_succ]; omega
    by_cases hc : 2 ^ n ≤ yrem
    · have hstep : combineStep z mods (val, yrem) n
          = some (mul64 val (modsVal x z n) % z, yrem - 2 ^ n) := by
        unfold combineStep
        rw [if_neg (by omega)]
        simp only [hc, if_true, hw n (by omega), hz, if_false]
      rw [hstep]
      exact combine_fold x z hz mods P hP n (by omega) (fun i hi => hw i (by omega)) _ _
        (by omega) (hP n val yrem hp hc)
    · have hstep : combineStep z mods (val, yrem) n = some (val, yrem) := by
        unfold combineStep
        rw [if_neg (by omega)]
        simp only [hc, if_false]
      rw [hstep]
      exact combine_fold x z hz mods P hP n (by omega) (fun i hi => hw i (by omega)) _ _
        (by omega) hp

/-- An exponent for which the index computation has a value is not zero. -/
theorem ceilLog2_pos {y l : Nat} (hl : ceilLog2 y = some l) : 1 ≤ y := by
  by_contra h
  have h0 : y = 0 := by omega
  subst h0
  simp [ceilLog2] at hl

/-- For `1 ≤ y < 2 ^ 64` the index computation yields `floorLog2 y` or one more, and
`floorLog2 y` when `y` is a power of two. -/
theorem ceilLog2_cases (y : Nat) (h1 : 1 ≤ y) (h2 : y < 2 ^ 64) :
    (ceilLog2 y = some (floorLog2 y) ∨ ceilLog2 y = some (floorLog2 y + 1)) ∧
    (y = 2 ^ floorLog2 y → ceilLog2 y = some (floorLog2 y)) := by
  have hy0 : ¬ y = 0 := by omega
  refine ⟨?_, fun hy => ?_⟩
  · unfold ceilLog2
    rw [if_neg hy0]
    by_cases h : doubleOffset y ≤ 11
    · exact Or.inl (by rw [if_pos h])
    · exact Or.inr (by rw [if_neg h])
  · have hoff : doubleOffset y = 0 := by
      unfold doubleOffset
      by_cases he : floorLog2 y ≤ 52
      · simp only [he, if_true]
        rw [← hy, Nat.sub_self, Nat.zero_mul]
      · have hs : 0 < 2 ^ (floorLog2 y - 52) := Nat.two_pow_pos _
        simp only [he, if_false]
        rw [← hy, Nat.sub_self, Nat.zero_div, Nat.zero_mod]
        rw [if_neg]
        omega
    unfold ceilLog2
    rw [if_neg hy0, hoff, if_pos (by omega)]

/-- For a nonzero modulus and an exponent `y` that is not a power of two greater
than 1 and for which the index computation yields an `l ≤ 63` with `y ≤ 2 ^ l`,
`modpow` returns, and a property of the state `(val, y)` of its second loop that
holds at `(1, y)` and that every multiplying pass keeps holds of the result with
`y = 0`. -/
theorem modpow_fold (x y z l : Nat) (hz : z ≠ 0) (hl : ceilLog2 y = some l)
    (hle : y ≤ 2 ^ l) (hl63 : l ≤ 63)
    (hpow : ∀ k, 1 ≤ k → y ≠ 2 ^ k) (P : Nat → Nat → Prop)
    (hP : ∀ i val yrem, P val yrem → 2 ^ i ≤ yrem →
      P (mul64 val (modsVal x z i) % z) (yrem - 2 ^ i))
    (h0 : P 1 y) : ∃ r, modpow x y z = some r ∧ P r 0 := by
  have hy1 : 1 ≤ y := ceilLog2_pos hl
  obtain ⟨mods, hfill, hw, _⟩ := fillMods_spec x z (l + 1) hz (by omega)
  have main : ∃ val1, (List.range (l + 1)).reverse.foldlM (combineStep z mods) (1, y)
      = some (val1, 0) ∧ P val1 0 := by
    by_cases hl0 : l = 0
    · subst hl0
      exact combine_fold x z hz mods P hP 1 (by omega)
        (fun i hi => hw i (Or.inr (by omega))) 1 y (by simp only [pow_zero] at hle; omega) h0
    · have hlt : y < 2 ^ l := lt_of_le_of_ne hle (hpow l (by omega))
      rw [List.range_succ, List.reverse_append, List.reverse_singleton, List.singleton_append,
        List.foldlM_cons]
      have hstep : combineStep z mods (1, y) l = some (1, y) := by
        unfold combineStep
        rw [if_neg (by omega)]
        simp only [not_le.2 hlt, if_false]
      rw [hstep]
      exact combine_fold x z hz mods P hP l (by omega)
        (fun i hi => hw i (Or.inl (by omega))) 1 y hlt h0
  obtain ⟨val1, hfold, hp⟩ := main
  refine ⟨val1, ?_, hp⟩
  unfold modpow
  rw [hl]
  simp only [hfill, hfold]

/-- Where the index computation yields an `l ≤ 63` with `y ≤ 2 ^ l` and `y` is not a
power of two greater than 1, `modpow` returns a value below the modulus. -/
theorem modpow_lt_of (x y z l : Nat) (hz : 1 ≤ z) (hl : ceilLog2 y = some l)
    (hle : y ≤ 2 ^ l) (hl63 : l ≤ 63) (hpow : ∀ k, 1 ≤ k → y ≠ 2 ^ k) :
    ∃ r, modpow x y z = some r ∧ r < z := by
  have hy1 : 1 ≤ y := ceilLog2_pos hl
  obtain ⟨r, hr, hp⟩ := modpow_fold x y z l (by omega) hl hle hl63 hpow
    (fun val yrem => yrem < y → val < z)
    (fun i val yrem _ _ _ => Nat.mod_lt _ (by omega))
    (fun h => absurd h (lt_irrefl _))
  exact ⟨r, hr, hp (by omega)⟩

/-- For an exponent `1 ≤ y < 2 ^ 49` that is not a power of two greater than 1,
`modpow` returns a value below the modulus. -/
theorem modpow_lt (x y z : Nat) (hz : 1 ≤ z) (hy1 : 1 ≤ y) (hy49 : y < 2 ^ 49)
    (hpow : ∀ k, 1 ≤ k → y ≠ 2 ^ k) : ∃ r, modpow x y z = some r ∧ r < z := by
  obtain ⟨l, hl, hle, hmin⟩ := ceilLog2_spec y hy1 hy49
  exact modpow_lt_of x y z l hz hl hle (le_trans (hmin 49 hy49.le) (by norm_num)) hpow

/-- For a base below `2 ^ 32` and a modulus of at most `2 ^ 32`, every table entry
is below `2 ^ 32` and `mods[i]` is congruent to `x ^ (2 ^ i)`. -/
theorem modsVal_small (x z : Nat) (hx : x < 2 ^ 32) (hz1 : 1 ≤ z) (hz : z ≤ 2 ^ 32) :
    ∀ i, modsVal x z i < 2 ^ 32 ∧ modsVal x z i ≡ x ^ (2 ^ i) [MOD z]
  | 0 => ⟨hx, by simp [modsVal, Nat.ModEq]⟩
  | i + 1 => by
    obtain ⟨h1, h2⟩ := modsVal_small x z hx hz1 hz i
    have hmul : modsVal x z i * modsVal x z i < U64 := by
      have := Nat.mul_lt_mul'' h1 h1
      rw [U64_eq]
      norm_num at this ⊢
      exact this
    have hdef : modsVal x z (i + 1) = (modsVal x z i * modsVal x z i) % z := by
      show mul64 (modsVal x z i) (modsVal x z i) % z = _
      rw [mul64_of_lt hmul]
    rw [hdef]
    refine ⟨lt_of_lt_of_le (Nat.mod_lt _ (by omega)) hz, ?_⟩
    have e : x ^ (2 ^ (i + 1)) = x ^ (2 ^ i) * x ^ (2 ^ i) := by
      rw [← pow_add, pow_succ, Nat.mul_two]
    rw [e]
    exact (Nat.mod_modEq _ _).trans (h2.mul h2)

/-- For a base below `2 ^ 32` and a modulus `1 ≤ z ≤ 2 ^ 32`, the power
`x ^ (2 ^ k + 1)` is congruent to `mods[k] * x`. -/
theorem pow_succ_mod (x z k v : Nat) (hx : x < 2 ^ 32) (hz1 : 1 ≤ z) (hz : z ≤ 2 ^ 32)
    (hv : modsVal x z k = v) : x ^ (2 ^ k + 1) % z = v * x % z := by
  have hm := (modsVal_small x z hx hz1 hz k).2
  rw [hv] at hm
  rw [pow_succ]
  exact (hm.mul_right x).symm

/-- For a base below `2 ^ 32`, a modulus `1 ≤ z ≤ 2 ^ 32` and an exponent `y` that
is not a power of two greater than 1 and for which the index computation yields an
`l ≤ 63` with `y ≤ 2 ^ l`, `modpow` returns `x ^ y mod z`. -/
theorem modpow_correct_of (x y z l : Nat) (hx : x < 2 ^ 32) (hz1 : 1 ≤ z) (hz : z ≤ 2 ^ 32)
    (hl : ceilLog2 y = some l) (hle : y ≤ 2 ^ l) (hl63 : l ≤ 63)
    (hpow : ∀ k, 1 ≤ k → y ≠ 2 ^ k) :
    modpow x y z = some (x ^ y % z) := by
  have hy1 : 1 ≤ y := ceilLog2_pos hl
  obtain ⟨r, hr, _, _, hmod, hlt⟩ := modpow_fold x y z l (by omega) hl hle hl63 hpow
    (fun val yrem => yrem ≤ y ∧ val < 2 ^ 32 ∧ val ≡ x ^ (y - yrem) [MOD z] ∧
      (yrem < y → val < z))
    (by
      intro i val yrem ⟨h1, h2, h3, _⟩ hc
      obtain ⟨hm1, hm2⟩ := modsVal_small x z hx hz1 hz i
      have hmul : val * modsVal x z i < U64 := by
        have := Nat.mul_lt_mul'' h2 hm1
        rw [U64_eq]
        norm_num at this ⊢
        exact this
      rw [mul64_of_lt hmul]
      have hlt : (val * modsVal x z i) % z < z := Nat.mod_lt _ (by omega)
      have hpos : 0 < 2 ^ i := Nat.two_pow_pos i
      refine ⟨le_trans (Nat.sub_le _ _) h1, lt_of_lt_of_le hlt hz, ?_, fun _ => hlt⟩
      have e : y - (yrem - 2 ^ i) = (y - yrem) + 2 ^ i := by omega
      rw [e, pow_add]
      exact (Nat.mod_modEq _ _).trans (h3.mul hm2))
    ⟨le_refl _, by norm_num, by simp [Nat.ModEq], fun h => absurd h (lt_irrefl _)⟩
  rw [hr]
  have h1 : r < z := hlt (by omega)
  have h2 : r % z = x ^ y % z := by simpa using hmod
  rw [← h2, Nat.mod_eq_of_lt h1]

/-- For a base below `2 ^ 32`, a modulus `1 ≤ z ≤ 2 ^ 32` and an exponent
`1 ≤ y < 2 ^ 49` that is not a power of two greater than 1, `modpow` returns
`x ^ y mod z`. -/
theorem modpow_correct (x y z : Nat) (hx : x < 2 ^ 32) (hz1 : 1 ≤ z) (hz : z ≤ 2 ^ 32)
    (hy1 : 1 ≤ y) (hy49 : y < 2 ^ 49) (hpow : ∀ k, 1 ≤ k → y ≠ 2 ^ k) :
    modpow x y z = some (x ^ y % z) := by
  obtain ⟨l, hl, hle, hmin⟩ := ceilLog2_spec y hy1 hy49
  exact modpow_correct_of x y z l hx hz1 hz hl hle (le_trans (hmin 49 hy49.le) (by norm_num)) hpow

/-- Where the index computation yields an `1 ≤ l ≤ 63` with `2 ^ l ≤ y`, the second
loop of `modpow` reads in its first pass the entry `mods[l]`, which the first loop
did not write. -/
theorem modpow_top_read (x y z l : Nat) (hz : z ≠ 0) (hl : ceilLog2 y = some l)
    (hl1 : 1 ≤ l) (hl63 : l ≤ 63) (hle : 2 ^ l ≤ y) : modpow x y z = none := by
  obtain ⟨mods, hfill, _, htop⟩ := fillMods_spec x z (l + 1) hz (by omega)
  have htop1 : mods.get? l = some none := htop (by omega)
  have hstep : combineStep z mods (1, y) l = none := by
    unfold combineStep
    rw [if_neg (by omega)]
    simp only [hle, if_true, htop1]
  unfold modpow
  rw [hl]
  simp only [hfill]
  rw [List.range_succ, List.reverse_append, List.reverse_singleton, List.singleton_append,
    List.foldlM_cons, hstep]
  rfl

/-- For `1 ≤ y < 2 ^ 63` the index computation yields at most 63, and at least 1
when `y ≥ 2`. -/
theorem ceilLog2_bounds (y l : Nat) (hy1 : 1 ≤ y) (hy63 : y < 2 ^ 63)
    (hl : ceilLog2 y = some l) : l ≤ 63 ∧ (2 ≤ y → 1 ≤ l) := by
  have h64 : y < 2 ^ 64 := lt_of_lt_of_le hy63 (Nat.pow_le_pow_right (by norm_num) (by norm_num))
  obtain ⟨hlo, hhi, _⟩ := floorLog2_spec y hy1 h64
  obtain ⟨hcases, _⟩ := ceilLog2_cases y hy1 h64
  have he62 : floorLog2 y ≤ 62 := by
    by_contra hc
    have : (2 : Nat) ^ 63 ≤ 2 ^ floorLog2 y := Nat.pow_le_pow_right (by norm_num) (by omega)
    omega
  have he1 : 2 ≤ y → 1 ≤ floorLog2 y := by
    intro h2
    by_contra hc
    have he0 : floorLog2 y = 0 := by omega
    rw [he0] at hhi
    simp only [zero_add, pow_one] at hhi
    omega
  rcases hcases with hc | hc
  · rw [hc] at hl
    have := Option.some.inj hl
    exact ⟨by omega, fun h2 => by have := he1 h2; omega⟩
  · rw [hc] at hl
    have := Option.some.inj hl
    exact ⟨by omega, fun _ => by omega⟩

/-- For a modulus `z ≥ 1` and an exponent `1 ≤ y < 2 ^ 63`, `modpow` reads the table
entry it did not write exactly when the index computation yields an `l ≥ 1` with
`2 ^ l ≤ y`. -/
theorem modpow_none_iff (x y z : Nat) (hz : 1 ≤ z) (hy1 : 1 ≤ y) (hy63 : y < 2 ^ 63) :
    modpow x y z = none ↔ ∃ l, ceilLog2 y = some l ∧ 1 ≤ l ∧ 2 ^ l ≤ y := by
  have h64 : y < 2 ^ 64 := lt_of_lt_of_le hy63 (Nat.pow_le_pow_right (by norm_num) (by norm_num))
  obtain ⟨hlo, hhi, _⟩ := floorLog2_spec y hy1 h64
  obtain ⟨hcases, hpw⟩ := ceilLog2_cases y hy1 h64
  have he62 : floorLog2 y ≤ 62 := by
    by_contra hc
    have : (2 : Nat) ^ 63 ≤ 2 ^ floorLog2 y := Nat.pow_le_pow_right (by norm_num) (by omega)
    omega
  constructor
  · intro hnone
    by_contra hno
    have hdef : ∃ r, modpow x y z = some r ∧ r < z := by
      rcases hcases with hc | hc
      · by_cases he0 : floorLog2 y = 0
        · rw [he0] at hc hhi
          have hy : y = 1 := by
            simp only [zero_add, pow_one] at hhi
            omega
          apply modpow_lt_of x y z 0 hz hc (by rw [hy, pow_zero]) (by omega)
          intro k hk hyk
          have : (2 : Nat) ^ 1 ≤ 2 ^ k := Nat.pow_le_pow_right (by norm_num) hk
          omega
        · exact absurd ⟨floorLog2 y, hc, by omega, hlo⟩ hno
      · apply modpow_lt_of x y z (floorLog2 y + 1) hz hc hhi.le (by omega)
        intro k hk hyk
        have h1 : 2 ^ floorLog2 y ≤ 2 ^ k := le_of_le_of_eq hlo hyk
        have h2 : 2 ^ k < 2 ^ (floorLog2 y + 1) := lt_of_eq_of_lt hyk.symm hhi
        have h3 := (Nat.pow_le_pow_iff_right (by norm_num : 1 < 2)).1 h1
        have h4 := (Nat.pow_lt_pow_iff_right (by norm_num : 1 < 2)).1 h2
        have hk1 : k = floorLog2 y := by omega
        have h5 := hpw (hk1 ▸ hyk)
        rw [hc] at h5
        have := Option.some.inj h5
        omega
    obtain ⟨r, hr, _⟩ := hdef
    rw [hr] at hnone
    exact absurd hnone (by simp)
  · rintro ⟨l, hl, hl1, hle⟩
    have hl63 : l ≤ 63 := by
      rcases hcases with hc | hc
      · rw [hc] at hl
        have := Option.some.inj hl
        omega
      · rw [hc] at hl
        have := Option.some.inj hl
        omega
    exact modpow_top_read x y z l (by omega) hl hl1 hl63 hle

/-- For a modulus `z ≥ 1` and an exponent `1 ≤ y < 2 ^ 49`, `modpow` reads the table
entry it did not write exactly when `y` is a power of two greater than 1. -/
theorem modpow_none_iff_pow (x y z : Nat) (hz : 1 ≤ z) (hy1 : 1 ≤ y) (hy49 : y < 2 ^ 49) :
    modpow x y z = none ↔ ∃ k, 1 ≤ k ∧ y = 2 ^ k := by
  have h63 : y < 2 ^ 63 := lt_of_lt_of_le hy49 (Nat.pow_le_pow_right (by norm_num) (by norm_num))
  obtain ⟨l1, hl1, hle1, hmin1⟩ := ceilLog2_spec y hy1 hy49
  rw [modpow_none_iff x y z hz hy1 h63]
  constructor
  · rintro ⟨l, hl, h1, hle⟩
    rw [hl1] at hl
    have := Option.some.inj hl
    subst this
    exact ⟨l1, h1, le_antisymm hle1 hle⟩
  · rintro ⟨k, hk, hyk⟩
    have h1 : 2 ^ k ≤ 2 ^ l1 := le_of_eq_of_le hyk.symm hle1
    have h2 := (Nat.pow_le_pow_iff_right (by norm_num : 1 < 2)).1 h1
    have h3 := hmin1 k hyk.le
    have h4 : l1 = k := by omega
    subst h4
    exact ⟨l1, hl1, hk, hyk.ge⟩

/-! ## `modpow` whatever the memory holds -/

/-- Every entry of the table holds a value. -/
theorem modsInitOn_full (stack : Nat → Nat) (index x : Nat) :
    (modsInitOn stack index x).length = index ∧
    ∀ k, k < index → ∃ v, (modsInitOn stack index x).get? k = some (some v) := by
  unfold modsInitOn
  refine ⟨by simp, fun k hk => ?_⟩
  simp only [List.get?_eq_getElem?]
  by_cases h0 : k = 0
  · subst h0
    exact ⟨x, by rw [List.getElem?_set_self (by simpa using hk)]⟩
  · refine ⟨stack k, ?_⟩
    rw [List.getElem?_set_ne (by omega)]
    simp [hk]

/-- The first loop of `modpow` keeps a table full whose entries all hold a value. -/
theorem fill_fold_full (z : Nat) (hz : z ≠ 0) : ∀ (l : List Nat) (mods : List (Option Nat)),
    (∀ i ∈ l, 1 ≤ i ∧ i ≤ mods.length) →
    (∀ k, k < mods.length → ∃ v, mods.get? k = some (some v)) →
    ∃ mods1, l.foldlM (fillStep z) mods = some mods1 ∧ mods1.length = mods.length ∧
      ∀ k, k < mods1.length → ∃ v, mods1.get? k = some (some v)
  | [], mods, _, hf => ⟨mods, rfl, rfl, hf⟩
  | i :: l, mods, hl, hf => by
    obtain ⟨hi1, hi2⟩ := hl i (List.mem_cons_self _ _)
    obtain ⟨m, hm⟩ := hf (i - 1) (by omega)
    have hstep : fillStep z mods i = some (mods.set i (some (mul64 m m % z))) := by
      unfold fillStep
      rw [hm]
      simp only [hz, if_false]
    obtain ⟨mods1, h1, h2, h3⟩ := fill_fold_full z hz l (mods.set i (some (mul64 m m % z)))
      (fun j hj => by
        rw [List.length_set]
        exact hl j (List.mem_cons_of_mem _ hj))
      (fun k hk => by
        rw [List.length_set] at hk
        simp only [List.get?_eq_getElem?]
        by_cases hki : i = k
        · subst hki
          exact ⟨_, List.getElem?_set_self hk⟩
        · rw [List.getElem?_set_ne hki]
          have := hf k hk
          simpa only [List.get?_eq_getElem?] using this)
    refine ⟨mods1, ?_, ?_, h3⟩
    · rw [List.foldlM_cons, hstep]
      exact h1
    · rw [h2, List.length_set]

/-- One pass of the second loop over a full table, for a nonzero modulus, returns,
and leaves the state as it is or leaves a value below the modulus. -/
theorem combineStepOn_full (c64 z : Nat) (hz : z ≠ 0) (mods : List (Option Nat))
    (hf : ∀ k, k < mods.length → ∃ v, mods.get? k = some (some v)) (st : Nat × Nat) (i : Nat)
    (hi : i < mods.length) :
    ∃ st1, combineStepOn c64 z mods st i = some st1 ∧ (st1 = st ∨ st1.1 < z) ∧
      ((if i < 64 then 2 ^ i else c64) ≤ st.2 → st1.1 < z) := by
  obtain ⟨m, hm⟩ := hf i hi
  unfold combineStepOn
  by_cases hc : (if i < 64 then 2 ^ i else c64) ≤ st.2
  · refine ⟨(mul64 st.1 m % z, st.2 - (if i < 64 then 2 ^ i else c64)), ?_, Or.inr ?_, fun _ => ?_⟩
    · simp only [hc, if_true, hm, hz, if_false]
    · exact Nat.mod_lt _ (Nat.pos_of_ne_zero hz)
    · exact Nat.mod_lt _ (Nat.pos_of_ne_zero hz)
  · exact ⟨st, by simp only [hc, if_false], Or.inl rfl, fun h => absurd h hc⟩

/-- The second loop over a full table, for a nonzero modulus, returns, and leaves
the state as it was or leaves a value below the modulus. -/
theorem combineOn_fold (c64 z : Nat) (hz : z ≠ 0) (mods : List (Option Nat))
    (hf : ∀ k, k < mods.length → ∃ v, mods.get? k = some (some v)) :
    ∀ (l : List Nat), (∀ i ∈ l, i < mods.length) → ∀ (st : Nat × Nat),
    ∃ st1, l.foldlM (combineStepOn c64 z mods) st = some st1 ∧ (st1 = st ∨ st1.1 < z)
  | [], _, st => ⟨st, rfl, Or.inl rfl⟩
  | i :: l, hl, st => by
    obtain ⟨st1, h1, h2, _⟩ := combineStepOn_full c64 z hz mods hf st i
      (hl i (List.mem_cons_self _ _))
    obtain ⟨st2, h3, h4⟩ := combineOn_fold c64 z hz mods hf l
      (fun j hj => hl j (List.mem_cons_of_mem _ hj)) st1
    refine ⟨st2, ?_, ?_⟩
    · rw [List.foldlM_cons, h1]
      exact h3
    · rcases h4 with h4 | h4
      · rcases h2 with h2 | h2
        · exact Or.inl (h4.trans h2)
        · exact Or.inr (h4 ▸ h2)
      · exact Or.inr h4

/-- For an exponent `y ≥ 1`, a modulus `z ≥ 1` and any table length `index ≥ 1`,
the body of `modpow` returns a value below `z`, whatever the memory of the table
held and whatever `pow(2, i)` converts to for `i ≥ 64`. -/
theorem modpowOn_lt (stack : Nat → Nat) (c64 index x y z : Nat) (hi : 1 ≤ index)
    (hy : 1 ≤ y) (hz : 1 ≤ z) : ∃ r, modpowOn stack c64 index x y z = some r ∧ r < z := by
  have hz0 : z ≠ 0 := by omega
  obtain ⟨hlen, hfull⟩ := modsInitOn_full stack index x
  obtain ⟨mods, hfill, hlen1, hf1⟩ := fill_fold_full z hz0 (List.range' 1 (index - 2))
    (modsInitOn stack index x)
    (fun i hi => by
      rw [List.mem_range'_1] at hi
      rw [hlen]
      omega)
    (fun k hk => hfull k (hlen ▸ hk))
  rw [hlen] at hlen1
  obtain ⟨n, rfl⟩ : ∃ n, index = n + 1 := ⟨index - 1, by omega⟩
  have hsplit : (List.range (n + 1)).reverse = (List.range' 1 n).reverse ++ [0] := by
    rw [List.range_eq_range', List.range'_succ, List.reverse_cons]
  obtain ⟨st1, h1, h2⟩ := combineOn_fold c64 z hz0 mods hf1 (List.range' 1 n).reverse
    (fun i hi => by
      rw [List.mem_reverse, List.mem_range'_1] at hi
      omega)
    (1, y)
  obtain ⟨st2, h3, h4, h5⟩ := combineStepOn_full c64 z hz0 mods hf1 st1 0 (by omega)
  have hlt : st2.1 < z := by
    rcases h2 with h2 | h2
    · apply h5
      rw [h2]
      simp only [Nat.zero_lt_succ, if_true, pow_zero]
      exact hy
    · rcases h4 with h4 | h4
      · rw [h4]
        exact h2
      · exact h4
  have hfold : ((List.range' 1 n).reverse ++ [0]).foldlM (combineStepOn c64 z mods) (1, y)
      = some st2 := by
    rw [List.foldlM_append, h1]
    show [0].foldlM (combineStepOn c64 z mods) st1 = some st2
    rw [List.foldlM_cons, h3]
    rfl
  refine ⟨st2.1, ?_, hlt⟩
  unfold modpowOn
  simp only [hfill, hsplit, hfold]

/-- For an exponent `y ≥ 1` and a modulus `z ≥ 1`, `modpow` returns a value below
`z`, whatever the memory of the table held and whatever `pow(2, 64)` converts
to. -/
theorem modpowAny_lt (stack : Nat → Nat) (c64 x y z : Nat) (hy : 1 ≤ y) (hz : 1 ≤ z) :
    ∃ r, modpowAny stack c64 x y z = some r ∧ r < z := by
  unfold modpowAny ceilLog2
  rw [if_neg (by omega)]
  by_cases h : doubleOffset y ≤ 11
  · simp only [h, if_true]
    exact modpowOn_lt stack c64 _ x y z (by omega) hy hz
  · simp only [h, if_false]
    exact modpowOn_lt stack c64 _ x y z (by omega) hy hz

/-- A pass of the first loop that has a result on a table with unwritten entries
has the same on a table that holds a value wherever that one is written. -/
theorem fillStep_mono (z : Nat) (mods mods1 : List (Option Nat)) (i : Nat)
    (hlen : mods1.length = mods.length)
    (hR : ∀ k v, mods.get? k = some (some v) → mods1.get? k = some (some v))
    (m : List (Option Nat)) (h : fillStep z mods i = some m) :
    ∃ m1, fillStep z mods1 i = some m1 ∧ m1.length = m.length ∧
      ∀ k v, m.get? k = some (some v) → m1.get? k = some (some v) := by
  unfold fillStep at h ⊢
  rcases hg : mods.get? (i - 1) with _ | (_ | a)
  · rw [hg] at h
    exact absurd h (by simp)
  · rw [hg] at h
    exact absurd h (by simp)
  · rw [hg] at h
    rw [hR _ _ hg]
    by_cases hz : z = 0
    · simp only [hz, if_true] at h
      exact absurd h (by simp)
    · simp only [hz, if_false] at h ⊢
      have hm := Option.some.inj h
      subst hm
      refine ⟨_, rfl, by rw [List.length_set, List.length_set, hlen], fun k v hk => ?_⟩
      simp only [List.get?_eq_getElem?] at hk ⊢
      by_cases hki : i = k
      · subst hki
        by_cases hil : i < mods.length
        · rw [List.getElem?_set_self hil] at hk
          rw [List.getElem?_set_self (hlen ▸ hil)]
          exact hk
        · rw [List.getElem?_eq_none (by rw [List.length_set]; omega)] at hk
          exact absurd hk (by simp)
      · rw [List.getElem?_set_ne hki] at hk
        rw [List.getElem?_set_ne hki]
        have := hR k v (by simpa only [List.get?_eq_getElem?] using hk)
        simpa only [List.get?_eq_getElem?] using this

/-- The first loop carries the relation of `fillStep_mono` through all its passes. -/
theorem fill_fold_mono (z : Nat) : ∀ (l : List Nat) (mods mods1 : List (Option Nat)),
    mods1.length = mods.length →
    (∀ k v, mods.get? k = some (some v) → mods1.get? k = some (some v)) →
    ∀ m, l.foldlM (fillStep z) mods = some m →
    ∃ m1, l.foldlM (fillStep z) mods1 = some m1 ∧ m1.length = m.length ∧
      ∀ k v, m.get? k = some (some v) → m1.get? k = some (some v)
  | [], mods, mods1, hlen, hR, m, h => by
    have hm : mods = m := Option.some.inj h
    subst hm
    exact ⟨mods1, rfl, hlen, hR⟩
  | i :: l, mods, mods1, hlen, hR, m, h => by
    rw [List.foldlM_cons] at h
    rcases hs : fillStep z mods i with _ | s
    · rw [hs] at h
      exact absurd h (by simp)
    · rw [hs] at h
      obtain ⟨s1, h1, h2, h3⟩ := fillStep_mono z mods mods1 i hlen hR s hs
      obtain ⟨m1, h4, h5, h6⟩ := fill_fold_mono z l s s1 h2 h3 m h
      refine ⟨m1, ?_, h5, h6⟩
      rw [List.foldlM_cons, h1]
      exact h4

/-- A pass of the second loop that has a result on a table with unwritten entries
has the same on a table that holds a value wherever that one is written. -/
theorem combineStep_mono (c64 z : Nat) (mods mods1 : List (Option Nat))
    (hR : ∀ k v, mods.get? k = some (some v) → mods1.get? k = some (some v))
    (st st1 : Nat × Nat) (i : Nat) (h : combineStep z mods st i = some st1) :
    combineStepOn c64 z mods1 st i = some st1 := by
  unfold combineStep at h
  unfold combineStepOn
  by_cases hi : 64 ≤ i
  · rw [if_pos hi] at h
    exact absurd h (by simp)
  · rw [if_neg hi] at h
    have hi1 : i < 64 := by omega
    simp only [hi1, if_true]
    by_cases hc : 2 ^ i ≤ st.2
    · simp only [hc, if_true] at h ⊢
      rcases hg : mods.get? i with _ | (_ | a)
      · rw [hg] at h
        exact absurd h (by simp)
      · rw [hg] at h
        exact absurd h (by simp)
      · rw [hg] at h
        rw [hR _ _ hg]
        exact h
    · simp only [hc, if_false] at h ⊢
      exact h

/-- The second loop carries its results over as `combineStep_mono` does. -/
theorem combine_fold_mono (c64 z : Nat) (mods mods1 : List (Option Nat))
    (hR : ∀ k v, mods.get? k = some (some v) → mods1.get? k = some (some v)) :
    ∀ (l : List Nat) (st st1 : Nat × Nat), l.foldlM (combineStep z mods) st = some st1 →
      l.foldlM (combineStepOn c64 z mods1) st = some st1
  | [], st, st1, h => h
  | i :: l, st, st1, h => by
    rw [List.foldlM_cons] at h
    rcases hs : combineStep z mods st i with _ | s
    · rw [hs] at h
      exact absurd h (by simp)
    · rw [hs] at h
      rw [List.foldlM_cons, combineStep_mono c64 z mods mods1 hR st s i hs]
      exact combine_fold_mono c64 z mods mods1 hR l s st1 h

/-- Where `modpow` has a result without reading an entry it did not write and
without converting `pow(2, 64)`, it has the same result whatever the memory of
the table held. -/
theorem modpow_coherent (stack : Nat → Nat) (c64 x y z r : Nat) (h : modpow x y z = some r) :
    modpowAny stack c64 x y z = some r := by
  unfold modpow at h
  unfold modpowAny
  rcases hl : ceilLog2 y with _ | l
  · rw [hl] at h
    exact absurd h (by simp)
  · rw [hl] at h
    simp only at h ⊢
    unfold fillMods at h
    unfold modpowOn
    rcases hf : (List.range' 1 (l + 1 - 2)).foldlM (fillStep z) (modsInit (l + 1) x) with _ | mods
    · rw [hf] at h
      exact absurd h (by simp)
    · rw [hf] at h
      simp only at h
      have hlen : (modsInitOn stack (l + 1) x).length = (modsInit (l + 1) x).length := by
        unfold modsInitOn modsInit
        simp
      have hR : ∀ k v, (modsInit (l + 1) x).get? k = some (some v) →
          (modsInitOn stack (l + 1) x).get? k = some (some v) := by
        intro k v hk
        unfold modsInit at hk
        unfold modsInitOn
        simp only [List.get?_eq_getElem?] at hk ⊢
        by_cases hk0 : k = 0
        · subst hk0
          rw [List.getElem?_set_self (by simp)] at hk
          rw [List.getElem?_set_self (by simp)]
          exact hk
        · rw [List.getElem?_set_ne (by omega), List.getElem?_replicate] at hk
          split at hk
          · exact absurd hk (by simp)
          · exact absurd hk (by simp)
      obtain ⟨mods1, h1, _, h3⟩ := fill_fold_mono z _ _ _ hlen hR mods hf
      rw [h1]
      simp only
      rcases hc : (List.range (l + 1)).reverse.foldlM (combineStep z mods) (1, y) with _ | st
      · rw [hc] at h
        exact absurd h (by simp)
      · rw [hc] at h
        simp only at h
        rw [combine_fold_mono c64 z mods mods1 h3 _ _ _ hc]
        exact h

/-! ## `read_cipher` on whole blocks -/

/-- The conversion `%02X` of a byte prints its two hexadecimal digits. -/
theorem fmt02X_byte : ∀ c, c < 256 → fmt02X c = [hexDigitChar (c / 16), hexDigitChar (c % 16)] := by
  decide

/-- A printed hexadecimal digit reads back as its value. -/
theorem hexDigitVal_hexDigitChar : ∀ d, d < 16 → hexDigitVal (hexDigitChar d) = some d := by
  decide

/-- NUL is no hexadecimal digit. -/
theorem hexDigitVal_nul : hexDigitVal 0 = none := by decide

/-- A byte that is not negative as a `char` is promoted to itself. -/
theorem charToUInt_id (sc : Bool) (b : Nat) (hs : sc = true → b ≤ 127) : charToUInt sc b = b := by
  unfold charToUInt
  rw [if_neg]
  rintro ⟨h1, h2⟩
  have := hs h1
  omega

/-- One pass of the loop of `mr_encode` on a byte that is not negative as a `char`:
its two digits and a NUL are stored at `hex_step`. -/
theorem encodeLoop_step (sc : Bool) (b : Nat) (rest hex_st : List Cell) (hex_step : Nat)
    (h0 : 1 ≤ b) (h0b : b ≤ 255) (hs : sc = true → b ≤ 127) :
    encodeLoop sc (some b :: rest) hex_st hex_step
      = match writeStr hex_st hex_step [hexDigitChar (b / 16), hexDigitChar (b % 16)] with
        | none => none
        | some hex_st1 => encodeLoop sc rest hex_st1 (hex_step + 2) := by
  rw [encodeLoop, if_neg (by omega), charToUInt_id sc b hs, fmt02X_byte b (by omega)]

/-- The big-endian value of one byte. -/
theorem bigEndian_one (b0 : Nat) : bigEndian [b0] = b0 := by
  simp only [bigEndian, List.length_nil]
  norm_num

/-- The big-endian value of two bytes. -/
theorem bigEndian_two (b0 b1 : Nat) : bigEndian [b0, b1] = b0 * 256 + b1 := by
  simp only [bigEndian, List.length_cons, List.length_nil]
  norm_num

/-- The big-endian value of three bytes. -/
theorem bigEndian_three (b0 b1 b2 : Nat) :
    bigEndian [b0, b1, b2] = b0 * 65536 + (b1 * 256 + b2) := by
  simp only [bigEndian, List.length_cons, List.length_nil]
  norm_num

/-- The big-endian value of four bytes. -/
theorem bigEndian_four (b0 b1 b2 b3 : Nat) :
    bigEndian [b0, b1, b2, b3] = b0 * 16777216 + (b1 * 65536 + (b2 * 256 + b3)) := by
  simp only [bigEndian, List.length_cons, List.length_nil]
  norm_num

/-- On at most four bytes, none NUL and none negative as a `char`, followed by a
NUL, `mr_encode` returns their big-endian value. -/
theorem encode_bytes (sc : Bool) (chunk : List Nat) (rest : List Cell) (hk : chunk.length ≤ 4)
    (hb : ∀ b ∈ chunk, 1 ≤ b ∧ b ≤ 255 ∧ (sc = true → b ≤ 127)) :
    mr_encode sc (chunk.map some ++ some 0 :: rest) = some (bigEndian chunk) := by
  have hd : ∀ b ∈ chunk, hexDigitVal (hexDigitChar (b / 16)) = some (b / 16) ∧
      hexDigitVal (hexDigitChar (b % 16)) = some (b % 16) := fun b hbm =>
    ⟨hexDigitVal_hexDigitChar _ (by have := hb b hbm; omega),
      hexDigitVal_hexDigitChar _ (by omega)⟩
  rcases chunk with _ | ⟨b0, _ | ⟨b1, _ | ⟨b2, _ | ⟨b3, _ | ⟨b4, t⟩⟩⟩⟩⟩
  · simp [mr_encode, encodeLoop, strtoul16, hexDigitVal_nul]
    rfl
  · have h0 := hb b0 (by simp)
    have d0 := hd b0 (by simp)
    unfold mr_encode
    simp only [List.map, List.cons_append, List.nil_append, bigEndian_one, bigEndian_two,
      bigEndian_three, bigEndian_four]
    rw [encodeLoop_step sc b0 _ _ _ h0.1 h0.2.1 h0.2.2]
    simp [writeStr, encodeLoop, strtoul16, d0.1, d0.2, hexDigitVal_nul]
    omega
  · have h0 := hb b0 (by simp)
    have d0 := hd b0 (by simp)
    have h1 := hb b1 (by simp)
    have d1 := hd b1 (by simp)
    unfold mr_encode
    simp only [List.map, List.cons_append, List.nil_append, bigEndian_one, bigEndian_two,
      bigEndian_three, bigEndian_four]
    rw [encodeLoop_step sc b0 _ _ _ h0.1 h0.2.1 h0.2.2]
    simp only [writeStr, List.length_replicate, List.length_cons, List.length_nil]
    norm_num
    rw [encodeLoop_step sc b1 _ _ _ h1.1 h1.2.1 h1.2.2]
    simp [writeStr, encodeLoop, strtoul16, d0.1, d0.2, d1.1, d1.2, hexDigitVal_nul]
    omega
  · have h0 := hb b0 (by simp)
    have d0 := hd b0 (by simp)
    have h1 := hb b1 (by simp)
    have d1 := hd b1 (by simp)
    have h2 := hb b2 (by simp)
    have d2 := hd b2 (by simp)
    unfold mr_encode
    simp only [List.map, List.cons_append, List.nil_append, bigEndian_one, bigEndian_two,
      bigEndian_three, bigEndian_four]
    rw [encodeLoop_step sc b0 _ _ _ h0.1 h0.2.1 h0.2.2]
    simp only [writeStr, List.length_replicate, List.length_cons, List.length_nil]
    norm_num
    rw [encodeLoop_step sc b1 _ _ _ h1.1 h1.2.1 h1.2.2]
    simp only [writeStr, List.length_replicate, List.length_cons, List.length_nil]
    norm_num
    rw [encodeLoop_step sc b2 _ _ _ h2.1 h2.2.1 h2.2.2]
    simp [writeStr, encodeLoop, strtoul16, d0.1, d0.2, d1.1, d1.2, d2.1, d2.2, hexDigitVal_nul]
    omega
  · have h0 := hb b0 (by simp)
    have d0 := hd b0 (by simp)
    have h1 := hb b1 (by simp)
    have d1 := hd b1 (by simp)
    have h2 := hb b2 (by simp)
    have d2 := hd b2 (by simp)
    have h3 := hb b3 (by simp)
    have d3 := hd b3 (by simp)
    unfold mr_encode
    simp only [List.map, List.cons_append, List.nil_append, bigEndian_one, bigEndian_two,
      bigEndian_three, bigEndian_four]
    rw [encodeLoop_step sc b0 _ _ _ h0.1 h0.2.1 h0.2.2]
    simp only [writeStr, List.length_replicate, List.length_cons, List.length_nil]
    norm_num
    rw [encodeLoop_step sc b1 _ _ _ h1.1 h1.2.1 h1.2.2]
    simp only [writeStr, List.length_replicate, List.length_cons, List.length_nil]
    norm_num
    rw [encodeLoop_step sc b2 _ _ _ h2.1 h2.2.1 h2.2.2]
    simp only [writeStr, List.length_replicate, List.length_cons, List.length_nil]
    norm_num
    rw [encodeLoop_step sc b3 _ _ _ h3.1 h3.2.1 h3.2.2]
    simp [writeStr, encodeLoop, strtoul16, d0.1, d0.2, d1.1, d1.2, d2.1, d2.2, d3.1, d3.2,
      hexDigitVal_nul]
    omega
  · simp at hk

/-- The big-endian value of `k` bytes is below `256 ^ k`. -/
theorem bigEndian_lt : ∀ (chunk : List Nat), (∀ b ∈ chunk, b ≤ 255) →
    bigEndian chunk < 256 ^ chunk.length
  | [], _ => by simp [bigEndian]
  | b :: bs, h => by
    have ih := bigEndian_lt bs (fun c hc => h c (List.mem_cons_of_mem _ hc))
    have hb : b ≤ 255 := h b (List.mem_cons_self _ _)
    rw [bigEndian, List.length_cons, Nat.pow_succ]
    calc b * 256 ^ bs.length + bigEndian bs < b * 256 ^ bs.length + 256 ^ bs.length := by omega
      _ = (b + 1) * 256 ^ bs.length := by ring
      _ ≤ 256 * 256 ^ bs.length := Nat.mul_le_mul_right _ (by omega)
      _ = 256 ^ bs.length * 256 := Nat.mul_comm _ _

/-- C14: where `char` is signed, `mr_encode` does not return the big-endian value of
a chunk holding a byte of 128 or more.  The byte C8 is printed by `%02X` as the
eight digits `FFFFFFC8`, of which the first two are kept: the chunk C8 has the
code 255, not 200; in the chunk 41 C8 the eight digits and their NUL, stored from
`hex_st[2]` on, do not fit the nine bytes of `hex_st`, and no code is defined.
Where `char` is unsigned the same chunks have the codes 200 and 16840. -/
theorem C14_encode_high_byte :
    charToUInt true 200 = 4294967240 ∧
    fmt02X 4294967240 = [70, 70, 70, 70, 70, 70, 67, 56] ∧
    mr_encode true [some 200, some 0] = some 255 ∧ bigEndian [200] = 200 ∧
    mr_encode true [some 65, some 200, some 0] = none ∧ bigEndian [65, 200] = 16840 ∧
    mr_encode false [some 200, some 0] = some 200 ∧
    mr_encode false [some 65, some 200, some 0] = some 16840 := by
  refine ⟨by decide, by decide, by decide, by decide, by decide, by decide, by decide,
    by decide⟩

/-! ## The RSA round trip for moduli up to `2 ^ 32` -/

/-- Fermat: raising to a power that is one more than a multiple of `p - 1` is the
identity modulo the prime `p`. -/
theorem pow_mod_prime (p m k : Nat) (hp : p.Prime) : m ^ (1 + k * (p - 1)) ≡ m [MOD p] := by
  by_cases hdvd : p ∣ m
  · have h1 : m ≡ 0 [MOD p] := (Nat.modEq_zero_iff_dvd).2 hdvd
    have h2 : m ^ (1 + k * (p - 1)) ≡ 0 [MOD p] := by
      apply (Nat.modEq_zero_iff_dvd).2
      rw [pow_add, pow_one]
      exact Dvd.dvd.mul_right hdvd _
    exact h2.trans h1.symm
  · have hco : Nat.Coprime m p := ((Nat.Prime.coprime_iff_not_dvd hp).2 hdvd).symm
    have h1 : m ^ (p - 1) ≡ 1 [MOD p] := by
      have := Nat.ModEq.pow_totient hco
      rwa [Nat.totient_prime hp] at this
    have h2 : (m ^ (p - 1)) ^ k ≡ 1 [MOD p] := by
      have := h1.pow k
      rwa [one_pow] at this
    have e : m ^ (1 + k * (p - 1)) = m * (m ^ (p - 1)) ^ k := by
      rw [pow_add, pow_one, Nat.mul_comm k, pow_mul]
    rw [e]
    have := (Nat.ModEq.refl m).mul h2
    rwa [Nat.mul_one] at this

/-- The RSA identity: for distinct primes `p`, `q` and an exponent `E` that is 1
modulo `(p - 1) * (q - 1)`, raising to the power `E` is the identity modulo
`p * q`. -/
theorem pow_mod_semiprime (p q m E : Nat) (hp : p.Prime) (hq : q.Prime) (hne : p ≠ q)
    (hE : E % ((p - 1) * (q - 1)) = 1) : m ^ E ≡ m [MOD p * q] := by
  have hdm := Nat.div_add_mod E ((p - 1) * (q - 1))
  rw [hE] at hdm
  generalize E / ((p - 1) * (q - 1)) = k at hdm
  have e1 : E = 1 + (k * (q - 1)) * (p - 1) := by
    rw [← hdm]
    ring
  have e2 : E = 1 + (k * (p - 1)) * (q - 1) := by
    rw [← hdm]
    ring
  have h1 : m ^ E ≡ m [MOD p] := by
    rw [e1]
    exact pow_mod_prime p m _ hp
  have h2 : m ^ E ≡ m [MOD q] := by
    rw [e2]
    exact pow_mod_prime q m _ hq
  exact (Nat.modEq_and_modEq_iff_modEq_mul ((Nat.coprime_primes hp hq).2 hne)).1 ⟨h1, h2⟩

/-- For distinct primes whose product is at most `2 ^ 32` and the keys a successful
`mr_make_keys` writes, encrypting a message below the modulus returns a block, and
decrypting that block returns the message. -/
theorem rsa_roundtrip (p q e d n m : Nat) (hp : p.Prime) (hq : q.Prime) (hne : p ≠ q)
    (hpq : p * q ≤ 2 ^ 32) (h : mr_make_keys p q = some (KeyGen.keys e d n)) (hm : m < n) :
    ∃ c, mr_encrypt m ⟨e, n⟩ = some c ∧ c < n ∧ mr_decrypt c ⟨d, n⟩ = some m := by
  have hpq64 : p * q < U64 := by
    rw [U64_eq]
    have : (2 : Nat) ^ 32 = 4294967296 := by norm_num
    omega
  obtain ⟨he, hd⟩ := keys_shape p q e d n hp hq hpq64 h
  rcases mr_make_keys_prime p q hp hq hpq64 with
    ⟨e1, d1, _, _, _, _, _, hdlt, hmod, hk⟩ | ⟨_, hk⟩
  · rw [hk] at h
    simp only [Option.some.injEq, KeyGen.keys.injEq] at h
    obtain ⟨rfl, rfl, rfl⟩ := h
    have hphi : (p - 1) * (q - 1) ≤ p * q := Nat.mul_le_mul (Nat.sub_le _ _) (Nat.sub_le _ _)
    have h32 : (2 : Nat) ^ 32 = 4294967296 := by norm_num
    have h49 : (2 : Nat) ^ 49 = 562949953421312 := by norm_num
    have hepow : ∀ k, 1 ≤ k → e1 ≠ 2 ^ k := by
      intro k hk hek
      have := two_pow_even k hk
      rw [← hek] at this
      omega
    have hdpow : ∀ k, 1 ≤ k → d1 ≠ 2 ^ k := by
      intro k hk hdk
      have := two_pow_even k hk
      rw [← hdk] at this
      omega
    have hlt : m ^ e1 % (p * q) < p * q := Nat.mod_lt _ (by omega)
    have henc : modpow m e1 (p * q) = some (m ^ e1 % (p * q)) :=
      modpow_correct m e1 (p * q) (by omega) (by omega) hpq (by omega) (by omega) hepow
    have hdec : modpow (m ^ e1 % (p * q)) d1 (p * q)
        = some ((m ^ e1 % (p * q)) ^ d1 % (p * q)) :=
      modpow_correct _ d1 (p * q) (by omega) (by omega) hpq (by omega) (by omega) hdpow
    have hid : (m ^ e1 % (p * q)) ^ d1 % (p * q) = m := by
      rw [← Nat.pow_mod, ← pow_mul]
      have := pow_mod_semiprime p q m (e1 * d1) hp hq hne hmod
      have h2 : m ^ (e1 * d1) % (p * q) = m % (p * q) := this
      rw [h2, Nat.mod_eq_of_lt hm]
    refine ⟨m ^ e1 % (p * q), henc, hlt, ?_⟩
    show modpow (m ^ e1 % (p * q)) d1 (p * q) = some m
    rw [hdec, hid]
  · rw [hk] at h
    simp at h

/-- C21: for distinct primes `p`, `q` with `p * q ≤ 2 ^ 32` and the keys `(e, n)`,
`(d, n)` a successful `mr_make_keys` writes, `mr_encrypt` returns a block for every
message `m < n`, and `mr_decrypt` of that block returns `m`. -/
theorem C21_roundtrip_small_modulus (p q e d n m : Nat) (hp : p.Prime) (hq : q.Prime)
    (hne : p ≠ q) (hpq : p * q ≤ 2 ^ 32)
    (h : mr_make_keys p q = some (KeyGen.keys e d n)) (hm : m < n) :
    ∃ c, mr_encrypt m ⟨e, n⟩ = some c ∧ mr_decrypt c ⟨d, n⟩ = some m := by
  obtain ⟨c, h1, _, h2⟩ := rsa_roundtrip p q e d n m hp hq hne hpq h hm
  exact ⟨c, h1, h2⟩

/-- Witness of C21 at `p = 61`, `q = 53`, `m = 65`. -/
theorem C21_roundtrip_small_modulus_witness :
    mr_make_keys 61 53 = some (KeyGen.keys 7 1783 3233) ∧
    ∃ c, mr_encrypt 65 ⟨7, 3233⟩ = some c ∧ mr_decrypt c ⟨1783, 3233⟩ = some 65 :=
  ⟨by decide, C21_roundtrip_small_modulus 61 53 7 1783 3233 65 (by norm_num) (by norm_num)
    (by decide) (by decide) (by decide) (by decide)⟩

/-! ## Primality by trial division -/

/-- What `noDivisorFrom` checks. -/
theorem noDivisorFrom_spec (p : Nat) : ∀ (depth lo : Nat), noDivisorFrom p lo depth = true →
    ∀ i, i < 2 ^ depth → ¬ (lo + 2 * i) ∣ p
  | 0, lo, h, i, hi => by
    have hi0 : i = 0 := by
      simp only [pow_zero] at hi
      omega
    subst hi0
    unfold noDivisorFrom at h
    intro hd
    have := Nat.mod_eq_zero_of_dvd hd
    simp only [Nat.mul_zero, Nat.add_zero] at this
    simp [this] at h
  | depth + 1, lo, h, i, hi => by
    unfold noDivisorFrom at h
    rw [Bool.and_eq_true] at h
    have hp : 2 ^ (depth + 1) = 2 ^ depth + 2 ^ depth := by
      rw [pow_succ]
      omega
    by_cases hm : i < 2 ^ depth
    · exact noDivisorFrom_spec p depth lo h.1 i hm
    · have := noDivisorFrom_spec p depth (lo + 2 * 2 ^ depth) h.2 (i - 2 ^ depth) (by omega)
      have e : lo + 2 * 2 ^ depth + 2 * (i - 2 ^ depth) = lo + 2 * i := by omega
      rw [e] at this
      exact this

/-- An odd number below `2 ^ 30` that no odd number from 3 to 32769 divides is
prime. -/
theorem prime_of_noDivisorFrom (p : Nat) (h2 : 2 ≤ p) (hodd : p % 2 = 1) (hp : p < 2 ^ 30)
    (h : noDivisorFrom p 3 14 = true) : p.Prime := by
  rw [Nat.prime_def_le_sqrt]
  refine ⟨h2, fun m hm2 hms hd => ?_⟩
  have hmm : m * m ≤ p := le_trans (Nat.mul_le_mul hms hms) (Nat.sqrt_le p)
  have hlt : m < 2 ^ 15 := by
    by_contra hc
    have h15 : 2 ^ 15 ≤ m := by omega
    have := Nat.mul_le_mul h15 h15
    norm_num at this hp
    omega
  by_cases hev : m % 2 = 0
  · have h2m : 2 ∣ m := Nat.dvd_of_mod_eq_zero hev
    have := Nat.mod_eq_zero_of_dvd (dvd_trans h2m hd)
    omega
  · have e : 3 + 2 * ((m - 3) / 2) = m := by omega
    have := noDivisorFrom_spec p 14 3 h ((m - 3) / 2) (by norm_num at hlt ⊢; omega)
    rw [e] at this
    exact this hd

/-! ## The claims on `modpow` and on the cipher file -/

/-- C11, as stated, fails: for the modulus `z = 0` no value is below `z`, and
`modpow(2, 3, 0)` divides by zero in its first loop; for the exponent `y = 0` the
index computation of `modpow(2, 0, 5)` has no value and nothing is returned.
Neither depends on what the memory of the table holds. -/
theorem C11_counterexample_zero_modulus_zero_exponent :
    modpow 2 3 0 = none ∧ (∀ stack c64, modpowAny stack c64 2 3 0 = none) ∧
    (¬ ∃ r : Nat, r < 0) ∧
    modpow 2 0 5 = none ∧ (∀ stack c64, modpowAny stack c64 2 0 5 = none) := by
  refine ⟨by decide, fun _ _ => rfl, ?_, by decide, fun _ _ => rfl⟩
  rintro ⟨r, hr⟩
  exact absurd hr (Nat.not_lt_zero r)

/-- C11, amended: for every base `x`, every exponent `y ≥ 1` and every modulus
`z ≥ 1`, `modpow(x, y, z)` returns a value strictly smaller than `z`, whatever the
memory of the table `mods` held before the call (`stack`) and whatever `pow(2, 64)`
converts to (`c64`), powers of two and exponents from `2 ^ 63` on included; the
same holds of the body of `modpow` for every table length `index ≥ 1`; and where
`modpow` has a result that depends on neither, it is that value. -/
theorem C11_modpow_below_modulus (stack : Nat → Nat) (c64 x y z : Nat) (hy : 1 ≤ y)
    (hz : 1 ≤ z) :
    (∃ r, modpowAny stack c64 x y z = some r ∧ r < z) ∧
    (∀ index, 1 ≤ index → ∃ r, modpowOn stack c64 index x y z = some r ∧ r < z) ∧
    (∀ r, modpow x y z = some r → modpowAny stack c64 x y z = some r ∧ r < z) := by
  obtain ⟨r, hr, hlt⟩ := modpowAny_lt stack c64 x y z hy hz
  refine ⟨⟨r, hr, hlt⟩, fun index hi => modpowOn_lt stack c64 index x y z hi hy hz,
    fun r1 h1 => ?_⟩
  have h2 := modpow_coherent stack c64 x y z r1 h1
  refine ⟨h2, ?_⟩
  rw [hr] at h2
  rw [← Option.some.inj h2]
  exact hlt

/-- Witness of the amended C11 at `x = 2`, `z = 5` and the exponent `y = 4`, a power
of two, in memory that held 7 everywhere. -/
theorem C11_modpow_below_modulus_witness :
    (∃ r, modpowAny (fun _ => 7) 0 2 4 5 = some r ∧ r < 5) ∧
    (∀ index, 1 ≤ index → ∃ r, modpowOn (fun _ => 7) 0 index 2 4 5 = some r ∧ r < 5) ∧
    (∀ r, modpow 2 4 5 = some r → modpowAny (fun _ => 7) 0 2 4 5 = some r ∧ r < 5) :=
  C11_modpow_below_modulus (fun _ => 7) 0 2 4 5 (by decide) (by decide)

/-- C19, as stated, fails.  For `x = 3`, `y = 2 ^ 49 + 1`, `z = 1000003` the value
of `x ^ y mod z` is 68628; the code computes `ceil(log2(y))` on doubles and gets
49, so the table has 50 entries, the fill loop stops at `mods[48]` and the second
loop reads `mods[49]`, never written: `modpow` has no defined result, and returns
0 where the memory held 0 and 3 where it held 1.  For `y = 2 ^ 63 + 2 ^ 62` the
logarithm is 64, and the second loop starts at `i = 64`, where `pow(2, 64)` does
not convert to a `uint64_t`; where the conversion gives 0, `mods[64]`, never
written, is read. -/
theorem C19_counterexample_exponent_2_pow_49_plus_1 :
    (1 ≤ 1000003 ∧ 1000003 ≤ 2 ^ 32 ∧ 3 < 2 ^ 32 ∧ 562949953421313 = 2 ^ 49 + 1 ∧
      ∀ k, 1 ≤ k → 562949953421313 ≠ 2 ^ k) ∧
    ceilLog2 562949953421313 = some 49 ∧
    3 ^ (2 ^ 49 + 1) % 1000003 = 68628 ∧
    modpow 3 562949953421313 1000003 = none ∧
    modpowAny (fun _ => 0) 0 3 562949953421313 1000003 = some 0 ∧
    modpowAny (fun _ => 1) 0 3 562949953421313 1000003 = some 3 ∧
    (13835058055282163712 = 2 ^ 63 + 2 ^ 62 ∧ ∀ k, 1 ≤ k → 13835058055282163712 ≠ 2 ^ k) ∧
    ceilLog2 13835058055282163712 = some 64 ∧
    modpow 3 13835058055282163712 1000003 = none ∧
    modpowAny (fun _ => 0) 0 3 13835058055282163712 1000003 = some 0 ∧
    modpowAny (fun _ => 1) 0 3 13835058055282163712 1000003 = some 944018 := by
  refine ⟨⟨by decide, by decide, by decide, by decide, fun k hk h => ?_⟩, by decide, ?_,
    by decide, by decide, by decide, ⟨by decide, fun k hk h => ?_⟩, by decide, by decide,
    by decide, by decide⟩
  · have := two_pow_even k hk
    omega
  · exact (pow_succ_mod 3 1000003 49 22876 (by decide) (by decide) (by decide)
      (by decide)).trans (by decide)
  · have h1 : (2 : Nat) ^ 63 < 13835058055282163712 := by decide
    have h2 : 13835058055282163712 < (2 : Nat) ^ 64 := by decide
    rw [h] at h1 h2
    have h3 := (Nat.pow_lt_pow_iff_right (by norm_num : 1 < 2)).1 h1
    have h4 := (Nat.pow_lt_pow_iff_right (by norm_num : 1 < 2)).1 h2
    omega

/-- C19, amended: for every modulus `1 ≤ z ≤ 2 ^ 32`, every base `x < 2 ^ 32` and
every exponent `1 ≤ y < 2 ^ 63` that is not a power of two greater than 1 and for
which the `ceil(log2(y))` the code computes on doubles is the exact integer ceiling
logarithm (the `l` with `y ≤ 2 ^ l`), `modpow(x, y, z)` returns `x ^ y mod z`; every
such `y` below `2 ^ 49` is one; and where the code computes a logarithm that is too
small, `modpow` reads the table entry it did not write. -/
theorem C19_modpow_small_modulus (x y z : Nat) (hz1 : 1 ≤ z) (hz : z ≤ 2 ^ 32)
    (hx : x < 2 ^ 32) (hy1 : 1 ≤ y) (hy63 : y < 2 ^ 63) (hpow : ∀ k, 1 ≤ k → y ≠ 2 ^ k) :
    (∀ l, ceilLog2 y = some l → y ≤ 2 ^ l → modpow x y z = some (x ^ y % z)) ∧
    (y < 2 ^ 49 → modpow x y z = some (x ^ y % z)) ∧
    (∀ l, ceilLog2 y = some l → 2 ^ l < y → modpow x y z = none) := by
  refine ⟨fun l hl hle => ?_, fun h49 => modpow_correct x y z hx hz1 hz hy1 h49 hpow,
    fun l hl hlt => ?_⟩
  · exact modpow_correct_of x y z l hx hz1 hz hl hle (ceilLog2_bounds y l hy1 hy63 hl).1 hpow
  · have hpos : 0 < 2 ^ l := Nat.two_pow_pos l
    exact (modpow_none_iff x y z hz1 hy1 hy63).2
      ⟨l, hl, (ceilLog2_bounds y l hy1 hy63 hl).2 (by omega), hlt.le⟩

/-- Witness of the amended C19 at `x = 65`, `y = 7`, `z = 3233`. -/
theorem C19_modpow_small_modulus_witness :
    (∀ k, 1 ≤ k → 7 ≠ 2 ^ k) ∧ ceilLog2 7 = some 3 ∧
    modpow 65 7 3233 = some (65 ^ 7 % 3233) := by
  have hpow : ∀ k, 1 ≤ k → 7 ≠ 2 ^ k := fun k hk h => by
    have := two_pow_even k hk
    omega
  exact ⟨hpow, by decide,
    (C19_modpow_small_modulus 65 7 3233 (by decide) (by decide) (by decide) (by decide)
      (by decide) hpow).1 3 (by decide) (by decide)⟩

/-- C20, as stated, fails in its last part: powers of two greater than 1 are not
the only exponents for which `modpow` reads its unwritten top table entry, and a
derived exponent can be one of the others.  From the primes 566308849 and
636204029 `mr_make_keys` derives `e = 5` and `d = 2 ^ 56 + 13`, odd; the code
computes `ceil(log2(d))` on doubles and gets 56, so `mods[56]` is not written and
the second loop reads it: decrypting with this key has no defined result, and
returns 0 where the memory held 0. -/
theorem C20_counterexample_private_exponent_2_pow_56_plus_13 :
    Nat.Prime 566308849 ∧ Nat.Prime 636204029 ∧ 566308849 * 636204029 < 2 ^ 64 ∧
    mr_make_keys 566308849 636204029
      = some (KeyGen.keys 5 72057594037927949 360287971392152621) ∧
    72057594037927949 = 2 ^ 56 + 13 ∧ 72057594037927949 % 2 = 1 ∧
    (∀ k, 1 ≤ k → 72057594037927949 ≠ 2 ^ k) ∧
    ceilLog2 72057594037927949 = some 56 ∧
    modpow 2 72057594037927949 360287971392152621 = none ∧
    mr_decrypt 2 ⟨72057594037927949, 360287971392152621⟩ = none ∧
    modpowAny (fun _ => 0) 0 2 72057594037927949 360287971392152621 = some 0 := by
  refine ⟨prime_of_noDivisorFrom 566308849 (by decide) (by decide) (by decide) (by decide),
    prime_of_noDivisorFrom 636204029 (by decide) (by decide) (by decide) (by decide),
    by decide, by decide, by decide, by decide,
    fun k hk h => ?_, by decide, by decide, by decide, by decide⟩
  have := two_pow_even k hk
  omega

/-- C20, amended: for primes `p`, `q` whose product fits in 64 bits, the exponents
that a successful `mr_make_keys` writes are a public exponent of 3, 5 or 7 and an
odd private exponent; neither is a power of two greater than 1.  Among the
exponents `1 ≤ y < 2 ^ 49` the powers of two greater than 1 are the only ones for
which `modpow` reads its unwritten top table entry, so `modpow` has a result at the
public exponent, and at the private exponent when it is below `2 ^ 49`; among the
exponents `1 ≤ y < 2 ^ 63` the entry is read exactly where `2 ^ l ≤ y` for the
`l ≥ 1` that the code computes as `ceil(log2(y))`. -/
theorem C20_exponents_not_powers_of_two (p q e d n : Nat) (hp : p.Prime) (hq : q.Prime)
    (hpq : p * q < 2 ^ 64) (h : mr_make_keys p q = some (KeyGen.keys e d n)) :
    (e = 3 ∨ e = 5 ∨ e = 7) ∧ d % 2 = 1 ∧
    (∀ k, 1 ≤ k → e ≠ 2 ^ k) ∧ (∀ k, 1 ≤ k → d ≠ 2 ^ k) ∧
    (∀ x, ∃ r, modpow x e n = some r) ∧
    (d < 2 ^ 49 → ∀ x, ∃ r, modpow x d n = some r) ∧
    (∀ x y z, 1 ≤ z → 1 ≤ y → y < 2 ^ 49 →
      (modpow x y z = none ↔ ∃ k, 1 ≤ k ∧ y = 2 ^ k)) ∧
    (∀ x y z, 1 ≤ z → 1 ≤ y → y < 2 ^ 63 →
      (modpow x y z = none ↔ ∃ l, ceilLog2 y = some l ∧ 1 ≤ l ∧ 2 ^ l ≤ y)) := by
  obtain ⟨he, hd⟩ := keys_shape p q e d n hp hq hpq h
  have hepow : ∀ k, 1 ≤ k → e ≠ 2 ^ k := fun k hk hek => by
    have := two_pow_even k hk
    rw [← hek] at this
    omega
  have hdpow : ∀ k, 1 ≤ k → d ≠ 2 ^ k := fun k hk hdk => by
    have := two_pow_even k hk
    rw [← hdk] at this
    omega
  have hn : 1 ≤ n := by
    have h2p := hp.two_le
    have h2q := hq.two_le
    have hpos : 1 ≤ p * q := Nat.mul_pos (by omega) (by omega)
    rcases mr_make_keys_prime p q hp hq hpq with ⟨e1, d1, _, _, _, _, _, _, _, hk⟩ | ⟨_, hk⟩
    · rw [hk] at h
      simp only [Option.some.injEq, KeyGen.keys.injEq] at h
      obtain ⟨_, _, rfl⟩ := h
      exact hpos
    · rw [hk] at h
      exact absurd h (by simp)
  refine ⟨he, hd, hepow, hdpow, fun x => ?_, fun hd49 x => ?_,
    fun x y z hz hy1 hy49 => modpow_none_iff_pow x y z hz hy1 hy49,
    fun x y z hz hy1 hy63 => modpow_none_iff x y z hz hy1 hy63⟩
  · obtain ⟨r, hr, _⟩ := modpow_lt x e n hn (by omega)
      (lt_of_le_of_lt (show e ≤ 7 by omega) (by norm_num)) hepow
    exact ⟨r, hr⟩
  · obtain ⟨r, hr, _⟩ := modpow_lt x d n hn (by omega) hd49 hdpow
    exact ⟨r, hr⟩

/-- Witness of the amended C20 at `p = 61`, `q = 53`. -/
theorem C20_exponents_not_powers_of_two_witness :
    mr_make_keys 61 53 = some (KeyGen.keys 7 1783 3233) ∧
    ((7 = 3 ∨ 7 = 5 ∨ 7 = 7) ∧ 1783 % 2 = 1 ∧
      (∀ k, 1 ≤ k → 7 ≠ 2 ^ k) ∧ (∀ k, 1 ≤ k → 1783 ≠ 2 ^ k) ∧
      (∀ x, ∃ r, modpow x 7 3233 = some r) ∧
      (1783 < 2 ^ 49 → ∀ x, ∃ r, modpow x 1783 3233 = some r) ∧
      (∀ x y z, 1 ≤ z → 1 ≤ y → y < 2 ^ 49 →
        (modpow x y z = none ↔ ∃ k, 1 ≤ k ∧ y = 2 ^ k)) ∧
      (∀ x y z, 1 ≤ z → 1 ≤ y → y < 2 ^ 63 →
        (modpow x y z = none ↔ ∃ l, ceilLog2 y = some l ∧ 1 ≤ l ∧ 2 ^ l ≤ y))) :=
  ⟨by decide, C20_exponents_not_powers_of_two 61 53 7 1783 3233 (by norm_num) (by norm_num)
    (by decide) (by decide)⟩

end Mirsa
